import Mathlib

/-!
Verification development for `src/table.py` (a sortable tkinter Treeview
table wrapper).

The embedding models the table as the host toolkit presents it to the code:
a list of displayed items (each with a widget-assigned identifier, its cell
values, and its style tags), the root item's tags, the per-column widths,
the direction flag `descending`, and the `last_focus` hover bookkeeping.
Text rendering (`Font().measure`) is an abstract width function supplied by
the environment, and `tree.identify_row` hit-testing is modelled by handing
the resolved target directly to the motion handler.
-/

namespace TkTable

/-- Python exceptions that `Table.sort_cols` can raise: `IndexError` from
`data[0]` on an empty list (line 107) and `ValueError` from `float(x)` on an
unparseable string (line 109). -/
inductive PyErr where
  | indexError
  | valueError
deriving DecidableEq

/-- One Treeview item (a displayed row): the widget-assigned identifier
(`iid`, modelled as a number), the row's cell values in column order
(`values=item` at insertion), and its current style tags. -/
structure Item where
  iid : Nat
  values : List String
  tags : List String
deriving DecidableEq

/-- The possible values of `self.last_focus['iid']` and of
`tree.identify_row(event.y)`: Python `None` (the initial value), the empty
string `''` (the tree's root item, returned on a hit-test miss), or a real
item identifier. `None` and `''` are both falsy but compare unequal under
`!=`. -/
inductive IidVal where
  | pynone
  | empty
  | iid (n : Nat)
deriving DecidableEq

/-- Python truthiness of an iid value: only a real item identifier is
truthy (line 132: `if self.last_focus['iid']:`). -/
def IidVal.truthy : IidVal → Bool
  | .iid _ => true
  | _ => false

/-- `self.last_focus`: the dict `{'iid': ..., 'tags': ...}` (line 34). -/
structure LastFocus where
  iid : IidVal
  tags : Option (List String)
deriving DecidableEq

/-- The `Table` instance state: column headers, the displayed items in
display order, the root item's tags, the column widths (positional, in
pixels of the abstract measure), the `descending` direction flag and the
`last_focus` hover bookkeeping. -/
structure Table where
  cols : List String
  items : List Item
  rootTags : List String
  widths : List Nat
  descending : Bool
  last_focus : LastFocus
deriving DecidableEq

/-! ### Model of Python `float()` on strings

`QInf` adds `-inf` (`⊥`) and `+inf` (`⊤`) to the rationals; Python's float
comparisons on parsed decimal strings are modelled by exact rational
comparison (IEEE binary rounding is not modelled; it can only merge
near-equal values, and sort ties are broken by the distinct item
identifiers). The accepted grammar: optional ASCII whitespace, one optional
sign, then either decimal digits with an optional fractional part and an
optional exponent, or `inf`/`infinity` case-insensitively. Digit-group
underscores and `nan` (whose comparisons are not an order) are outside the
modelled domain. -/

abbrev QInf := WithBot (WithTop ℚ)

/-- A finite rational as a `QInf`. -/
def qfin (q : ℚ) : QInf := ((q : WithTop ℚ) : QInf)

/-- Positive infinity. -/
def qinfPos : QInf := ((⊤ : WithTop ℚ) : QInf)

/-- Negative infinity. -/
def qinfNeg : QInf := (⊥ : QInf)

/-- Value of a list of decimal digit characters. -/
def digitsVal (ds : List Char) : Nat :=
  ds.foldl (fun n c => 10 * n + (c.toNat - 48)) 0

/-- Parse the optional exponent part (`e`/`E`, optional sign, digits) that
may follow the mantissa; the remaining input must be consumed entirely. -/
def parseExpPart (mant : ℚ) (cs : List Char) : Option ℚ :=
  match cs with
  | [] => some mant
  | c :: rest =>
    if c = 'e' ∨ c = 'E' then
      let signed : Int × List Char :=
        match rest with
        | '+' :: r => (1, r)
        | '-' :: r => (-1, r)
        | r => (1, r)
      let ds := signed.2.takeWhile Char.isDigit
      let rest3 := signed.2.dropWhile Char.isDigit
      if ds = [] ∨ rest3 ≠ [] then none
      else some (mant * (10 : ℚ) ^ (signed.1 * (digitsVal ds : Int)))
    else none

/-- Parse an unsigned decimal mantissa (digits, optional point, optional
fractional digits — at least one digit overall) followed by an optional
exponent part. -/
def parseUnsigned (cs : List Char) : Option ℚ :=
  let ip := cs.takeWhile Char.isDigit
  let rest := cs.dropWhile Char.isDigit
  match rest with
  | '.' :: rest2 =>
    let fp := rest2.takeWhile Char.isDigit
    let rest3 := rest2.dropWhile Char.isDigit
    if ip = [] ∧ fp = [] then none
    else parseExpPart ((digitsVal ip : ℚ) + (digitsVal fp : ℚ) / (10 : ℚ) ^ fp.length) rest3
  | _ =>
    if ip = [] then none
    else parseExpPart (digitsVal ip : ℚ) rest

/-- Model of Python's built-in `float` applied to a string (line 109):
`none` models a raised `ValueError`. -/
def pyFloat (s : String) : Option QInf :=
  let cs := ((s.toList.dropWhile Char.isWhitespace).reverse.dropWhile Char.isWhitespace).reverse
  let signed : Bool × List Char :=
    match cs with
    | '+' :: r => (false, r)
    | '-' :: r => (true, r)
    | r => (false, r)
  let body := signed.2.map Char.toLower
  if body = "inf".toList ∨ body = "infinity".toList then
    some (if signed.1 then qinfNeg else qinfPos)
  else
    match parseUnsigned signed.2 with
    | none => none
    | some q => some (qfin (if signed.1 then -q else q))

/-! ### The numeric-detection check (line 107) -/

/-- Python's `x in "0123456789"` applied to `x = v[0:1]`: substring
containment, so the empty slice (from an empty value) is contained in every
string, and a one-character slice is contained exactly when the character
is an ASCII digit. -/
def pyInDigits (cs : List Char) : Bool :=
  match cs with
  | [] => true
  | c :: _ => decide (c ∈ "0123456789".toList)

/-- Line 107: `data[0][0][0:1] in "0123456789"` for a single value. -/
def looksNumeric (s : String) : Bool := pyInDigits (s.toList.take 1)

/-- Modelled from the spec: the spec's stated numeric-detection policy,
"the first character of the first row's value for that column is an ASCII
digit" — i.e. one of "0123456789" (empty value: no first character, so the
policy answers no). Stated for comparison with the source's
`looksNumeric`. -/
def firstCharDigit (s : String) : Bool :=
  match s.toList with
  | [] => false
  | c :: _ => decide (c ∈ "0123456789".toList)

/-- `self.tree.set(child, col)`: the row's displayed value under the given
column (columns addressed positionally). -/
def cellValue (it : Item) (col : Nat) : String := it.values.getD col ""

/-! ### Python `list.sort` on the `(value, iid)` pairs (line 110)

Python compares the pairs lexicographically and sorts stably; with
`reverse=True` it produces the stable descending order (ties keep their
original relative order). A stable comparison sort is modelled by insertion
sort on the corresponding relation. -/

/-- Python tuple comparison `(k, i) <= (k2, i2)`, lexicographic. -/
def pairLe {K : Type} [LinearOrder K] (a b : K × Nat) : Prop :=
  a.1 < b.1 ∨ (a.1 = b.1 ∧ a.2 ≤ b.2)

/-- The flipped pair comparison, used for `reverse=True`. -/
def pairGe {K : Type} [LinearOrder K] (a b : K × Nat) : Prop := pairLe b a

instance {K : Type} [LinearOrder K] : DecidableRel (@pairLe K _) := fun a b =>
  inferInstanceAs (Decidable (_ ∨ _))

instance {K : Type} [LinearOrder K] : DecidableRel (@pairGe K _) := fun a b =>
  inferInstanceAs (Decidable (pairLe b a))

/-- `data.sort(reverse=self.descending)`: stable ascending sort, or stable
descending sort when the flag is set. -/
def pySortPairs {K : Type} [LinearOrder K] (reverse : Bool) (data : List (K × Nat)) :
    List (K × Nat) :=
  if reverse then List.insertionSort pairGe data else List.insertionSort pairLe data

/-! ### The reorder-and-retag loop (lines 111-119) -/

/-- The shade tag assigned to display position `i` by the alternating `odd`
flag that starts at `True`. -/
def shadeTag (i : Nat) : String := if i % 2 = 0 then "oddrow" else "evenrow"

/-- `tree.item(iid, tags=ts)` restricted to the displayed items: retag the
item(s) carrying the given identifier. -/
def setItemTags (items : List Item) (iid : Nat) (ts : List String) : List Item :=
  items.map fun it => if it.iid == iid then { it with tags := ts } else it

/-- `tree.move(iid, '', pos)`: detach the identified item and reinsert it at
the given index of the root's children. -/
def treeMove (items : List Item) (iid pos : Nat) : List Item :=
  match items.find? (fun it => it.iid == iid) with
  | none => items
  | some it =>
    let rest := items.eraseP (fun x => x.iid == iid)
    rest.take pos ++ it :: rest.drop pos

/-- The loop `for i, item in enumerate(data): tree.move(item[1], '', i);
tree.item(item[1], tags=...)` with the alternating `odd` flag, started at
index `i`. -/
def moveRetagFrom (i : Nat) (order : List Nat) (items : List Item) : List Item :=
  match order with
  | [] => items
  | iid :: rest => moveRetagFrom (i + 1) rest (setItemTags (treeMove items iid i) iid [shadeTag i])

/-- The `(value, child)` pairs read on line 105-106, in display order. -/
def pairsOf (t : Table) (col : Nat) : List (String × Nat) :=
  t.items.map fun it => (cellValue it col, it.iid)

/-- The comprehension `[(float(x[0]), x[1]) for x in data]` (line 109):
parse every value, failing at the first `ValueError`. -/
def mapParse : List (String × Nat) → Option (List (QInf × Nat))
  | [] => some []
  | (s, i) :: rest =>
    match pyFloat s with
    | none => none
    | some q =>
      match mapParse rest with
      | none => none
      | some l => some ((q, i) :: l)

/-- The state produced by a completed sort: rows reordered and retagged by
the loop on lines 111-119, and the direction flag flipped (line 121). -/
def postSort {K : Type} [LinearOrder K] (t : Table) (sorted : List (K × Nat)) : Table :=
  { t with items := moveRetagFrom 0 (sorted.map Prod.snd) t.items,
           descending := !t.descending }

/-- `Table.sort_cols` (lines 97-121). On an empty table `data[0]` raises
`IndexError` before anything is mutated; in the numeric branch `float`
raises `ValueError` on the first unparseable value, again before any
mutation. -/
def sort_cols (t : Table) (col : Nat) : Except PyErr Table :=
  match t.items with
  | [] => Except.error PyErr.indexError
  | first :: _ =>
    if looksNumeric (cellValue first col) then
      match mapParse (pairsOf t col) with
      | none => Except.error PyErr.valueError
      | some numData => Except.ok (postSort t (pySortPairs t.descending numData))
    else Except.ok (postSort t (pySortPairs t.descending (pairsOf t col)))

/-! ### The hover handler (lines 123-137) -/

/-- The result of `tree.identify_row(event.y)`: a row identifier, or the
empty string on a hit-test miss. -/
def iidValOfTarget : Option Nat → IidVal
  | none => IidVal.empty
  | some n => IidVal.iid n

/-- `tree.item(v)['tags']`: the root item (`''`) keeps its own tags; an
item with no tags reads as no tags. -/
def getTagsOf (t : Table) (v : IidVal) : List String :=
  match v with
  | .iid n => ((t.items.find? (fun it => it.iid == n)).map Item.tags).getD []
  | .empty => t.rootTags
  | .pynone => []

/-- `tree.item(v, tags=ts)`: setting tags on the root (`''`) touches only
the root item. -/
def setTagsOf (t : Table) (v : IidVal) (ts : List String) : Table :=
  match v with
  | .iid n => { t with items := setItemTags t.items n ts }
  | .empty => { t with rootTags := ts }
  | .pynone => t

/-- `Table.highlight_row` (lines 123-137), given the resolved motion target
(`some n` for a row, `none` for the hit-test miss `''`). If the target
equals the current focus nothing happens; otherwise the previous focus, if
truthy, is restored to its saved tags, the target's current tags are saved,
and the target is retagged with the single hover tag. -/
def highlight_row (t : Table) (target : Option Nat) : Table :=
  let v := iidValOfTarget target
  if v = t.last_focus.iid then t
  else
    let t1 :=
      match t.last_focus.iid with
      | IidVal.iid p => setTagsOf t (IidVal.iid p) (t.last_focus.tags.getD [])
      | _ => t
    let saved := getTagsOf t1 v
    let t2 := setTagsOf t1 v ["hovered_row"]
    { t2 with last_focus := { iid := v, tags := some saved } }

/-! ### Construction (`__init__` / `init_table` / `insert_data`) -/

/-- One step of the cell-width widening on lines 91-95: widen the column at
`idx` if the measured cell is wider. -/
def updateCell (measure : String → Nat) (ws : List Nat) (idx : Nat) (val : String) : List Nat :=
  if ws.getD idx 0 < measure val then ws.set idx (measure val) else ws

/-- The `for idx, val in enumerate(item)` width loop, from column `idx`. -/
def updateWidthsFrom (measure : String → Nat) (idx : Nat) (ws : List Nat) :
    List String → List Nat
  | [] => ws
  | val :: rest => updateWidthsFrom measure (idx + 1) (updateCell measure ws idx val) rest

/-- Width updates contributed by one inserted row. -/
def updateWidthsRow (measure : String → Nat) (ws : List Nat) (row : List String) : List Nat :=
  updateWidthsFrom measure 0 ws row

/-- The row-insertion loop of `insert_data` (lines 83-95): each row is
appended with the alternating shade tag, assigned the next identifier, and
widens the columns to its measured cells. -/
def insertRows (measure : String → Nat) :
    List (List String) → Bool → Nat → List Nat → List Item × List Nat
  | [], _, _, ws => ([], ws)
  | row :: rest, odd, nextIid, ws =>
    let ws1 := updateWidthsRow measure ws row
    let p := insertRows measure rest (!odd) (nextIid + 1) ws1
    (⟨nextIid, row, [if odd then "oddrow" else "evenrow"]⟩ :: p.1, p.2)

/-- Table construction: headers registered with initial widths
`Font().measure(c)` (line 81), rows inserted in input order with the
alternating shade flag started at `True` (lines 83-95), direction flag
initially `True` (line 33) and empty hover bookkeeping (line 34). -/
def init_table (measure : String → Nat) (cols : List String) (data : List (List String)) :
    Table :=
  let p := insertRows measure data true 0 (cols.map measure)
  { cols := cols, items := p.1, rootTags := [], widths := p.2,
    descending := true,
    last_focus := { iid := IidVal.pynone, tags := none } }

/-! ### Derived notions used by the statements -/

/-- The shade tags required of `n` displayed rows: position `i` carries
`oddrow` when `i` is even and `evenrow` when `i` is odd. -/
def shadeTags (n : Nat) : List (List String) :=
  (List.range n).map fun k => [shadeTag k]

/-- The alternating-shade invariant of a display list. -/
def shadeOK (items : List Item) : Prop :=
  items.map Item.tags = shadeTags items.length

/-- Number of displayed rows currently carrying the hover tag. -/
def hoverCount (t : Table) : Nat :=
  t.items.countP fun it => decide ("hovered_row" ∈ it.tags)

/-- Lookup of a displayed item by identifier (defaulting to a dummy). -/
def findIt (items : List Item) (j : Nat) : Item :=
  (items.find? (fun it => it.iid == j)).getD ⟨j, [], []⟩

/-- The reachable table states: a constructed table, followed by any
sequence of completed header-click sorts and pointer-motion events whose
hit-test resolves to a displayed row or to a miss. -/
inductive Reach : Table → Prop where
  | base : ∀ (measure : String → Nat) (cols : List String) (data : List (List String)),
      Reach (init_table measure cols data)
  | sort : ∀ (t : Table) (col : Nat) (t1 : Table), Reach t →
      sort_cols t col = Except.ok t1 → Reach t1
  | motion : ∀ (t : Table) (target : Option Nat), Reach t →
      (∀ n, target = some n → n ∈ t.items.map Item.iid) →
      Reach (highlight_row t target)

/-- The numeric-detection outcome of a sort on the given table: the check
on line 107 applied to the first displayed row's value (meaningful only for
non-empty tables; defined false on an empty one, where line 107 raises
before the check can answer). -/
def branchNumeric (t : Table) (col : Nat) : Bool :=
  match t.items with
  | [] => false
  | first :: _ => looksNumeric (cellValue first col)

/-- The numeric key a value sorts under in the numeric branch (meaningful
when the value parses). -/
def numKey (col : Nat) (it : Item) : QInf := (pyFloat (cellValue it col)).getD qinfNeg

/-- The state after a completed sort, used to chain concrete scenarios (the
default branch is never taken in those scenarios). -/
def sortOnce (t : Table) (col : Nat) : Table := (sort_cols t col).toOption.getD t

instance pairLe_total {K : Type} [LinearOrder K] : IsTotal (K × Nat) pairLe where
  total a b := by
    rcases lt_trichotomy a.1 b.1 with h | h | h
    · exact Or.inl (Or.inl h)
    · rcases Nat.le_total a.2 b.2 with h2 | h2
      · exact Or.inl (Or.inr ⟨h, h2⟩)
      · exact Or.inr (Or.inr ⟨h.symm, h2⟩)
    · exact Or.inr (Or.inl h)

instance pairLe_trans {K : Type} [LinearOrder K] : IsTrans (K × Nat) pairLe where
  trans a b c hab hbc := by
    rcases hab with h1 | ⟨h1, h1n⟩
    · rcases hbc with h2 | ⟨h2, _⟩
      · exact Or.inl (h1.trans h2)
      · exact Or.inl (h2 ▸ h1)
    · rcases hbc with h2 | ⟨h2, h2n⟩
      · exact Or.inl (h1 ▸ h2)
      · exact Or.inr ⟨h1.trans h2, h1n.trans h2n⟩

instance pairLe_antisymm {K : Type} [LinearOrder K] : IsAntisymm (K × Nat) pairLe where
  antisymm a b hab hba := by
    rcases hab with h1 | ⟨h1, h1n⟩
    · rcases hba with h2 | ⟨h2, _⟩
      · exact absurd (h1.trans h2) (lt_irrefl _)
      · exact absurd h1 (h2 ▸ lt_irrefl _)
    · rcases hba with h2 | ⟨h2, h2n⟩
      · exact absurd h2 (h1 ▸ lt_irrefl _)
      · exact Prod.ext h1 (Nat.le_antisymm h1n h2n)

instance pairGe_total {K : Type} [LinearOrder K] : IsTotal (K × Nat) pairGe where
  total a b := pairLe_total.total b a

instance pairGe_trans {K : Type} [LinearOrder K] : IsTrans (K × Nat) pairGe where
  trans a b c hab hbc := pairLe_trans.trans c b a hbc hab

instance pairGe_antisymm {K : Type} [LinearOrder K] : IsAntisymm (K × Nat) pairGe where
  antisymm a b hab hba := pairLe_antisymm.antisymm a b hba hab

/-- The hover-state invariant maintained by every reachable table state:
item identifiers are distinct; only the focused row can carry the hover
tag; the saved tags never contain the hover tag; and a truthy focus always
has saved tags and names a displayed row. -/
structure Inv (t : Table) : Prop where
  nodup : (t.items.map Item.iid).Nodup
  hover_focus : ∀ it ∈ t.items, "hovered_row" ∈ it.tags → t.last_focus.iid = IidVal.iid it.iid
  saved_no_hover : ∀ p ts, t.last_focus.iid = IidVal.iid p → t.last_focus.tags = some ts →
    "hovered_row" ∉ ts
  saved_present : ∀ p, t.last_focus.iid = IidVal.iid p →
    (∃ ts, t.last_focus.tags = some ts) ∧ p ∈ t.items.map Item.iid

/-- Concrete tables used by closed counterexample and witness statements. -/
def demoText : Table := init_table (fun _ => 0) ["A"] [["x"], ["y"]]

/-- A two-row numeric table. -/
def demoNum : Table := init_table (fun _ => 0) ["A"] [["1"], ["2"]]

/-- The branch-flip scenario: distinct values "10", "9", "-2". -/
def demoRev : Table := init_table (fun _ => 0) ["A"] [["10"], ["9"], ["-2"]]

/-- A numeric-looking column containing an unparseable value. -/
def demoParse : Table := init_table (fun _ => 0) ["A"] [["1"], ["x"]]

/-- A table whose first value is the empty string. -/
def demoEmptyVal : Table := init_table (fun _ => 0) ["A"] [[""]]

/-- The numeric table with row 0 hovered. -/
def demoHover : Table := highlight_row demoNum (some 0)

/-! ### Helper lemmas: item lookup, retagging, the move loop -/

theorem setItemTags_cons (a : Item) (tl : List Item) (p : Nat) (ts : List String) :
    setItemTags (a :: tl) p ts =
      (if a.iid = p then { a with tags := ts } else a) :: setItemTags tl p ts := by
  by_cases h : a.iid = p <;> simp [setItemTags, h]

theorem setItemTags_map_iid (items : List Item) (p : Nat) (ts : List String) :
    (setItemTags items p ts).map Item.iid = items.map Item.iid := by
  unfold setItemTags
  rw [List.map_map]
  refine List.map_congr_left fun it _ => ?_
  by_cases h : it.iid = p <;> simp [h]

theorem setItemTags_not_mem (items : List Item) (p : Nat) (ts : List String)
    (h : p ∉ items.map Item.iid) : setItemTags items p ts = items := by
  unfold setItemTags
  have hid : ∀ it ∈ items, (if it.iid == p then { it with tags := ts } else it) = id it := by
    intro it hit
    have hne : it.iid ≠ p := fun he => h (he ▸ List.mem_map_of_mem Item.iid hit)
    simp [hne]
  rw [List.map_congr_left hid, List.map_id]

theorem find?_setItemTags_ne (items : List Item) (p q : Nat) (ts : List String)
    (hpq : p ≠ q) :
    (setItemTags items p ts).find? (fun it => it.iid == q) =
      items.find? (fun it => it.iid == q) := by
  induction items with
  | nil => rfl
  | cons a tl ih =>
    rw [setItemTags_cons]
    by_cases hq : a.iid = q
    · have hp : ¬ a.iid = p := fun h => hpq (h.symm.trans hq)
      rw [if_neg hp, List.find?_cons_of_pos _ (by simp [hq]),
        List.find?_cons_of_pos _ (by simp [hq])]
    · by_cases hp : a.iid = p
      · rw [if_pos hp, List.find?_cons_of_neg _ (by simp [hq]),
          List.find?_cons_of_neg _ (by simp [hq]), ih]
      · rw [if_neg hp, List.find?_cons_of_neg _ (by simp [hq]),
          List.find?_cons_of_neg _ (by simp [hq]), ih]

theorem find?_setItemTags_self (items : List Item) (p : Nat) (ts : List String) :
    (setItemTags items p ts).find? (fun it => it.iid == p) =
      (items.find? (fun it => it.iid == p)).map fun it => { it with tags := ts } := by
  induction items with
  | nil => rfl
  | cons a tl ih =>
    rw [setItemTags_cons]
    by_cases hp : a.iid = p
    · rw [if_pos hp, List.find?_cons_of_pos _ (by simp [hp]),
        List.find?_cons_of_pos _ (by simp [hp])]
      rfl
    · rw [if_neg hp, List.find?_cons_of_neg _ (by simp [hp]),
        List.find?_cons_of_neg _ (by simp [hp]), ih]

theorem find?_eraseP_ne (l : List Item) (i j : Nat) (hij : i ≠ j) :
    (l.eraseP (fun x => x.iid == i)).find? (fun x => x.iid == j) =
      l.find? (fun x => x.iid == j) := by
  induction l with
  | nil => rfl
  | cons a tl ih =>
    by_cases hi : a.iid = i
    · have hj : ¬ a.iid = j := fun h => hij (hi.symm.trans h)
      rw [List.eraseP_cons_of_pos (by simp [hi]), List.find?_cons_of_neg _ (by simp [hj])]
    · rw [List.eraseP_cons_of_neg (by simp [hi])]
      by_cases hj : a.iid = j
      · rw [List.find?_cons_of_pos _ (by simp [hj]), List.find?_cons_of_pos _ (by simp [hj])]
      · rw [List.find?_cons_of_neg _ (by simp [hj]), List.find?_cons_of_neg _ (by simp [hj]), ih]

theorem find?_iid_eq_some (items : List Item) (j : Nat) (h : j ∈ items.map Item.iid) :
    ∃ it, items.find? (fun x => x.iid == j) = some it ∧ it.iid = j := by
  induction items with
  | nil => simp at h
  | cons a tl ih =>
    by_cases ha : a.iid = j
    · exact ⟨a, List.find?_cons_of_pos _ (by simp [ha]), ha⟩
    · have hmem : j ∈ tl.map Item.iid := by
        rcases List.mem_map.1 h with ⟨it, hit, hiid⟩
        rcases List.mem_cons.1 hit with rfl | hmem2
        · exact absurd hiid ha
        · exact hiid ▸ List.mem_map_of_mem Item.iid hmem2
      rcases ih hmem with ⟨it, hfind, hiid⟩
      exact ⟨it, by rw [List.find?_cons_of_neg _ (by simp [ha]), hfind], hiid⟩

theorem findIt_iid (items : List Item) (j : Nat) (h : j ∈ items.map Item.iid) :
    (findIt items j).iid = j := by
  rcases find?_iid_eq_some items j h with ⟨it, hfind, hiid⟩
  simp [findIt, hfind, hiid]

theorem findIt_self (items : List Item) (it : Item)
    (hnd : (items.map Item.iid).Nodup) (hit : it ∈ items) :
    findIt items it.iid = it := by
  induction items with
  | nil => simp at hit
  | cons a tl ih =>
    rcases List.mem_cons.1 hit with rfl | hmem
    · simp [findIt, List.find?]
    · have hnd' : (tl.map Item.iid).Nodup := (List.nodup_cons.1 (by simpa using hnd)).2
      have hna : a.iid ∉ tl.map Item.iid := (List.nodup_cons.1 (by simpa using hnd)).1
      have hne : ¬ a.iid = it.iid := fun h =>
        hna (h ▸ List.mem_map_of_mem Item.iid hmem)
      have hts := ih hnd' hmem
      unfold findIt at hts ⊢
      rwa [List.find?_cons_of_neg _ (by simp [hne])]
theorem not_mem_eraseP_beq (L : List Nat) (j : Nat) (h : L.Nodup) :
    j ∉ L.eraseP (· == j) := by
  induction L with
  | nil => simp
  | cons a tl ih =>
    by_cases ha : a = j
    · rw [List.eraseP_cons_of_pos (by simp [ha])]
      exact ha ▸ (List.nodup_cons.1 h).1
    · rw [List.eraseP_cons_of_neg (by simp [ha])]
      intro hmem
      rcases List.mem_cons.1 hmem with rfl | hmem2
      · exact ha rfl
      · exact ih (List.nodup_cons.1 h).2 hmem2

theorem perm_cons_erasePBeq (L : List Nat) (j : Nat) (h : j ∈ L) :
    List.Perm L (j :: L.eraseP (· == j)) := by
  induction L with
  | nil => simp at h
  | cons a tl ih =>
    by_cases ha : a = j
    · rw [List.eraseP_cons_of_pos (by simp [ha]), ha]
    · rw [List.eraseP_cons_of_neg (by simp [ha])]
      have hmem : j ∈ tl := by
        rcases List.mem_cons.1 h with rfl | hm
        · exact absurd rfl ha
        · exact hm
      exact ((ih hmem).cons a).trans (List.Perm.swap j a _)

theorem map_iid_eraseP (pending : List Item) (j : Nat) :
    (pending.eraseP (fun x => x.iid == j)).map Item.iid =
      (pending.map Item.iid).eraseP (· == j) := by
  rw [List.eraseP_map]
  rfl

theorem moveRetagFrom_spec :
    ∀ (order : List Nat) (placed pending : List Item),
      ((placed ++ pending).map Item.iid).Nodup →
      List.Perm order (pending.map Item.iid) →
      moveRetagFrom placed.length order (placed ++ pending) =
        placed ++ (order.enumFrom placed.length).map
          (fun q => { findIt pending q.2 with tags := [shadeTag q.1] })
  | [], placed, pending, _, hperm => by
    have h1 : pending.map Item.iid = [] := hperm.symm.eq_nil
    have h2 : pending = [] := List.map_eq_nil_iff.1 h1
    simp [moveRetagFrom, h2]
  | j :: rest, placed, pending, hnd, hperm => by
    have hjmem : j ∈ pending.map Item.iid := hperm.mem_iff.1 (List.mem_cons_self j rest)
    have hndP : (placed.map Item.iid).Nodup ∧ (pending.map Item.iid).Nodup ∧
        (placed.map Item.iid).Disjoint (pending.map Item.iid) := by
      have := hnd
      rw [List.map_append, List.nodup_append] at this
      exact this
    have hjnp : j ∉ placed.map Item.iid := fun hj => hndP.2.2 hj hjmem
    rcases find?_iid_eq_some pending j hjmem with ⟨it, hfind, hiid⟩
    have hfindP : placed.find? (fun x => x.iid == j) = none :=
      List.find?_eq_none.2 fun x hx => by
        simp only [beq_iff_eq]
        exact fun he => hjnp (he ▸ List.mem_map_of_mem Item.iid hx)
    have hmove : treeMove (placed ++ pending) j placed.length =
        placed ++ it :: pending.eraseP (fun x => x.iid == j) := by
      unfold treeMove
      rw [List.find?_append, hfindP, Option.none_or, hfind]
      rw [List.eraseP_append_right _ fun b hb => by
        simp only [beq_iff_eq]
        exact fun he => hjnp (he ▸ List.mem_map_of_mem Item.iid hb)]
      show List.take placed.length (placed ++ List.eraseP (fun x => x.iid == j) pending) ++
          it :: List.drop placed.length (placed ++ List.eraseP (fun x => x.iid == j) pending) =
          placed ++ it :: List.eraseP (fun x => x.iid == j) pending
      rw [List.take_left, List.drop_left]
    have hsetP : ∀ x ∈ placed, ¬ x.iid = j :=
      fun x hx he => hjnp (he ▸ List.mem_map_of_mem Item.iid hx)
    have hjnp2 : j ∉ (pending.eraseP (fun x => x.iid == j)).map Item.iid := by
      rw [map_iid_eraseP]
      exact not_mem_eraseP_beq _ j hndP.2.1
    have hset : setItemTags (placed ++ it :: pending.eraseP (fun x => x.iid == j)) j
          [shadeTag placed.length] =
        placed ++ ({ it with tags := [shadeTag placed.length] } ::
          pending.eraseP (fun x => x.iid == j)) := by
      unfold setItemTags
      rw [List.map_append]
      congr 1
      · have hid : ∀ x ∈ placed,
            (if x.iid == j then { x with tags := [shadeTag placed.length] } else x) = id x := by
          intro x hx
          simp [hsetP x hx]
        rw [List.map_congr_left hid, List.map_id]
      · rw [List.map_cons]
        congr 1
        · simp [hiid]
        · have hid : ∀ y ∈ pending.eraseP (fun x => x.iid == j),
              (if y.iid == j then { y with tags := [shadeTag placed.length] } else y) = id y := by
            intro y hy
            have hyj : y.iid ≠ j := by
              intro he
              have hym : y.iid ∈ (pending.eraseP (fun x => x.iid == j)).map Item.iid :=
                List.mem_map_of_mem Item.iid hy
              rw [he] at hym
              exact hjnp2 hym
            simp [hyj]
          rw [List.map_congr_left hid, List.map_id]
    have hpermMap : List.Perm (pending.map Item.iid)
        (j :: (pending.eraseP (fun x => x.iid == j)).map Item.iid) := by
      rw [map_iid_eraseP]
      exact perm_cons_erasePBeq _ j hjmem
    have hndNew : ((( placed ++ [{ it with tags := [shadeTag placed.length] }]) ++
        pending.eraseP (fun x : Item => x.iid == j)).map Item.iid).Nodup := by
      refine List.Perm.nodup ?_ hnd
      rw [List.map_append, List.map_append, List.map_append]
      have hmapret :
          (List.map Item.iid [({ it with tags := [shadeTag placed.length] } : Item)]) = [j] := by
        simp [hiid]
      rw [hmapret, List.append_assoc, List.singleton_append]
      exact List.Perm.append_left _ hpermMap
    have hpermRest : List.Perm rest ((pending.eraseP (fun x => x.iid == j)).map Item.iid) :=
      (hperm.trans hpermMap).cons_inv
    have hrec := moveRetagFrom_spec rest
      (placed ++ [{ it with tags := [shadeTag placed.length] }])
      (pending.eraseP (fun x => x.iid == j)) hndNew hpermRest
    have hlen : (placed ++ [{ it with tags := [shadeTag placed.length] }]).length =
        placed.length + 1 := by simp
    have hrestNd : j ∉ rest := by
      have : (j :: rest).Nodup := hperm.symm.nodup hndP.2.1
      exact (List.nodup_cons.1 this).1
    have hlookup : ∀ q ∈ rest.enumFrom (placed.length + 1),
        ({ findIt (pending.eraseP (fun x => x.iid == j)) q.2 with
            tags := [shadeTag q.1] } : Item) =
          { findIt pending q.2 with tags := [shadeTag q.1] } := by
      intro q hq
      have hq2 : q.2 ∈ rest := by
        rcases q with ⟨qi, qv⟩
        exact (List.mem_enumFrom hq).2.2 ▸ List.getElem_mem _
      have hq2j : j ≠ q.2 := fun he => hrestNd (he ▸ hq2)
      unfold findIt
      rw [find?_eraseP_ne pending j q.2 hq2j]
    calc moveRetagFrom placed.length (j :: rest) (placed ++ pending)
        = moveRetagFrom (placed.length + 1) rest
            (setItemTags (treeMove (placed ++ pending) j placed.length) j
              [shadeTag placed.length]) := rfl
      _ = moveRetagFrom (placed.length + 1) rest
            ((placed ++ [{ it with tags := [shadeTag placed.length] }]) ++
              pending.eraseP (fun x => x.iid == j)) := by
          rw [hmove, hset, List.append_assoc]
          rfl
      _ = (placed ++ [{ it with tags := [shadeTag placed.length] }]) ++
            (rest.enumFrom (placed.length + 1)).map
              (fun q => { findIt (pending.eraseP (fun x => x.iid == j)) q.2 with
                tags := [shadeTag q.1] }) := by
          rw [← hlen]
          exact hrec
      _ = placed ++ ((j :: rest).enumFrom placed.length).map
            (fun q => { findIt pending q.2 with tags := [shadeTag q.1] }) := by
          rw [List.enumFrom_cons, List.map_cons, List.append_assoc]
          congr 1
          rw [List.cons_append, List.nil_append]
          congr 1
          · unfold findIt
            rw [hfind]
            rfl
          · exact List.map_congr_left hlookup
theorem moveRetagFrom_zero (order : List Nat) (items : List Item)
    (hnd : (items.map Item.iid).Nodup)
    (hperm : List.Perm order (items.map Item.iid)) :
    moveRetagFrom 0 order items =
      order.enum.map (fun q => { findIt items q.2 with tags := [shadeTag q.1] }) := by
  have h := moveRetagFrom_spec order [] items (by simpa using hnd) hperm
  simpa using h

theorem snd_mem_of_mem_enum {order : List Nat} {q : Nat × Nat} (hq : q ∈ order.enum) :
    q.2 ∈ order := by
  rcases q with ⟨qi, qv⟩
  have hq2 : (qi, qv) ∈ order.enumFrom 0 := hq
  obtain ⟨_, hlt, hv⟩ := List.mem_enumFrom hq2
  simp only [Nat.sub_zero] at hv
  rw [show ((qi, qv) : Nat × Nat).2 = qv from rfl, hv]
  exact List.getElem_mem _

theorem sortResult_map_iid (order : List Nat) (items : List Item)
    (hnd : (items.map Item.iid).Nodup)
    (hperm : List.Perm order (items.map Item.iid)) :
    (moveRetagFrom 0 order items).map Item.iid = order := by
  rw [moveRetagFrom_zero order items hnd hperm, List.map_map]
  have h1 : ∀ q ∈ order.enum,
      (Item.iid ∘ fun q => ({ findIt items q.2 with tags := [shadeTag q.1] } : Item)) q =
        Prod.snd q :=
    fun q hq => findIt_iid items q.2 (hperm.mem_iff.1 (snd_mem_of_mem_enum hq))
  rw [List.map_congr_left h1, List.enum_map_snd]

theorem sortResult_length (order : List Nat) (items : List Item)
    (hnd : (items.map Item.iid).Nodup)
    (hperm : List.Perm order (items.map Item.iid)) :
    (moveRetagFrom 0 order items).length = order.length := by
  have h := congrArg List.length (sortResult_map_iid order items hnd hperm)
  simpa using h

theorem sortResult_map_tags (order : List Nat) (items : List Item)
    (hnd : (items.map Item.iid).Nodup)
    (hperm : List.Perm order (items.map Item.iid)) :
    (moveRetagFrom 0 order items).map Item.tags = shadeTags order.length := by
  rw [moveRetagFrom_zero order items hnd hperm, List.map_map]
  show order.enum.map ((fun k => [shadeTag k]) ∘ Prod.fst) = shadeTags order.length
  rw [← List.map_map, List.enum_map_fst]
  rfl

theorem sortResult_shadeOK (order : List Nat) (items : List Item)
    (hnd : (items.map Item.iid).Nodup)
    (hperm : List.Perm order (items.map Item.iid)) :
    shadeOK (moveRetagFrom 0 order items) := by
  unfold shadeOK
  rw [sortResult_map_tags order items hnd hperm, sortResult_length order items hnd hperm]

theorem sortResult_map_values (order : List Nat) (items : List Item)
    (hnd : (items.map Item.iid).Nodup)
    (hperm : List.Perm order (items.map Item.iid)) :
    (moveRetagFrom 0 order items).map Item.values =
      order.map fun j => (findIt items j).values := by
  rw [moveRetagFrom_zero order items hnd hperm, List.map_map]
  have h1 : ∀ q ∈ order.enum,
      (Item.values ∘ fun q => ({ findIt items q.2 with tags := [shadeTag q.1] } : Item)) q =
        ((fun j => (findIt items j).values) ∘ Prod.snd) q := fun q _ => rfl
  rw [List.map_congr_left h1, ← List.map_map, List.enum_map_snd]

theorem map_values_of_iids (items : List Item) (hnd : (items.map Item.iid).Nodup) :
    (items.map Item.iid).map (fun j => (findIt items j).values) = items.map Item.values := by
  rw [List.map_map]
  refine List.map_congr_left fun it hit => ?_
  show (findIt items it.iid).values = it.values
  rw [findIt_self items it hnd hit]

theorem sortResult_map_key {K : Type} (kf : Item → K)
    (hkf : ∀ it ts, kf { it with tags := ts } = kf it)
    (items : List Item) (hnd : (items.map Item.iid).Nodup)
    (sorted : List (K × Nat))
    (hsorted : List.Perm sorted (items.map fun it => (kf it, it.iid))) :
    (moveRetagFrom 0 (sorted.map Prod.snd) items).map (fun it => (kf it, it.iid)) =
      sorted := by
  have hperm : List.Perm (sorted.map Prod.snd) (items.map Item.iid) := by
    have h1 := hsorted.map Prod.snd
    rw [List.map_map] at h1
    exact h1
  rw [moveRetagFrom_zero _ items hnd hperm, List.map_map]
  have h1 : ∀ q ∈ (sorted.map Prod.snd).enum,
      ((fun it => (kf it, it.iid)) ∘
          fun q => ({ findIt items q.2 with tags := [shadeTag q.1] } : Item)) q =
        ((fun j => (kf (findIt items j), j)) ∘ Prod.snd) q := by
    intro q hq
    have hm : q.2 ∈ items.map Item.iid := hperm.mem_iff.1 (snd_mem_of_mem_enum hq)
    show (kf { findIt items q.2 with tags := [shadeTag q.1] },
        ({ findIt items q.2 with tags := [shadeTag q.1] } : Item).iid) =
      (kf (findIt items q.2), q.2)
    rw [hkf]
    exact Prod.ext rfl (findIt_iid items q.2 hm)
  rw [List.map_congr_left h1, ← List.map_map, List.enum_map_snd, List.map_map]
  refine List.map_congr_left (fun p hp => ?_) |>.trans (List.map_id sorted) |>.symm.symm
  rcases List.mem_map.1 (hsorted.mem_iff.1 hp) with ⟨it, hit, hpe⟩
  show ((fun j => (kf (findIt items j), j)) ∘ Prod.snd) p = id p
  have hps : p.2 = it.iid := by rw [← hpe]
  show (kf (findIt items p.2), p.2) = p
  rw [hps, findIt_self items it hnd hit, ← hpe]
theorem mapParse_some_map :
    ∀ (l : List (String × Nat)) (l2 : List (QInf × Nat)), mapParse l = some l2 →
      l2 = l.map fun p => ((pyFloat p.1).getD qinfNeg, p.2)
  | [], l2, h => by simpa [mapParse] using h.symm
  | (s, i) :: rest, l2, h => by
    unfold mapParse at h
    cases hs : pyFloat s with
    | none => rw [hs] at h; exact absurd h (by simp)
    | some q =>
      rw [hs] at h
      cases hr : mapParse rest with
      | none => rw [hr] at h; exact absurd h (by simp)
      | some l3 =>
        rw [hr] at h
        have h2 := mapParse_some_map rest l3 hr
        simp only [Option.some.injEq] at h
        rw [← h, h2, List.map_cons, hs]
        rfl

theorem mapParse_none_iff :
    ∀ l : List (String × Nat), mapParse l = none ↔ ∃ p ∈ l, pyFloat p.1 = none
  | [] => by simp [mapParse]
  | (s, i) :: rest => by
    unfold mapParse
    cases hs : pyFloat s with
    | none => simp [hs]
    | some q =>
      cases hr : mapParse rest with
      | none =>
        have h2 := (mapParse_none_iff rest).1 hr
        simp only [true_iff, List.mem_cons]
        rcases h2 with ⟨p, hp, hpn⟩
        exact ⟨p, Or.inr hp, hpn⟩
      | some l3 =>
        have h2 := (mapParse_none_iff rest).2
        simp only [List.mem_cons]
        constructor
        · intro h
          exact absurd h (by simp)
        · rintro ⟨p, rfl | hp, hpn⟩
          · exact absurd hpn (by simp [hs])
          · have hnone : mapParse rest = none := h2 ⟨p, hp, hpn⟩
            rw [hnone] at hr
            exact absurd hr (by simp)

theorem insertionSort_ge_eq_reverse_le {K : Type} [LinearOrder K]
    (l1 l2 : List (K × Nat)) (hp : List.Perm l1 l2) :
    List.insertionSort pairGe l2 = (List.insertionSort pairLe l1).reverse := by
  refine List.eq_of_perm_of_sorted (r := pairGe) ?_ ?_ ?_
  · exact ((List.perm_insertionSort pairGe l2).trans hp.symm).trans
      ((List.perm_insertionSort pairLe l1).symm.trans (List.reverse_perm _).symm)
  · exact List.sorted_insertionSort pairGe l2
  · exact List.pairwise_reverse.2 (List.sorted_insertionSort pairLe l1)

theorem insertionSort_le_eq_reverse_ge {K : Type} [LinearOrder K]
    (l1 l2 : List (K × Nat)) (hp : List.Perm l1 l2) :
    List.insertionSort pairLe l2 = (List.insertionSort pairGe l1).reverse := by
  refine List.eq_of_perm_of_sorted (r := pairLe) ?_ ?_ ?_
  · exact ((List.perm_insertionSort pairLe l2).trans hp.symm).trans
      ((List.perm_insertionSort pairGe l1).symm.trans (List.reverse_perm _).symm)
  · exact List.sorted_insertionSort pairLe l2
  · exact List.pairwise_reverse.2 (List.sorted_insertionSort pairGe l1)

theorem pySortPairs_perm {K : Type} [LinearOrder K] (reverse : Bool)
    (d : List (K × Nat)) : List.Perm (pySortPairs reverse d) d := by
  cases reverse with
  | true => exact List.perm_insertionSort pairGe d
  | false => exact List.perm_insertionSort pairLe d

theorem pySortPairs_flip_reverse {K : Type} [LinearOrder K] (b : Bool)
    (l1 l2 : List (K × Nat)) (hp : List.Perm l1 l2) :
    pySortPairs (!b) l2 = (pySortPairs b l1).reverse := by
  cases b with
  | true => exact insertionSort_le_eq_reverse_ge l1 l2 hp
  | false => exact insertionSort_ge_eq_reverse_le l1 l2 hp

theorem pairsOf_map_snd (t : Table) (col : Nat) :
    (pairsOf t col).map Prod.snd = t.items.map Item.iid := by
  unfold pairsOf
  rw [List.map_map]
  rfl
theorem sort_cols_empty (t : Table) (col : Nat) (h : t.items = []) :
    sort_cols t col = Except.error PyErr.indexError := by
  unfold sort_cols
  rw [h]

theorem sort_cols_numeric (t : Table) (col : Nat) (first : Item) (rest : List Item)
    (hitems : t.items = first :: rest)
    (hnum : looksNumeric (cellValue first col) = true)
    (nd : List (QInf × Nat)) (hparse : mapParse (pairsOf t col) = some nd) :
    sort_cols t col = Except.ok (postSort t (pySortPairs t.descending nd)) := by
  unfold sort_cols
  rw [hitems]
  simp only [hnum, if_pos, hparse]

theorem sort_cols_numeric_fail (t : Table) (col : Nat) (first : Item) (rest : List Item)
    (hitems : t.items = first :: rest)
    (hnum : looksNumeric (cellValue first col) = true)
    (hparse : mapParse (pairsOf t col) = none) :
    sort_cols t col = Except.error PyErr.valueError := by
  unfold sort_cols
  rw [hitems]
  simp only [hnum, if_pos, hparse]

theorem sort_cols_text (t : Table) (col : Nat) (first : Item) (rest : List Item)
    (hitems : t.items = first :: rest)
    (hnum : looksNumeric (cellValue first col) = false) :
    sort_cols t col = Except.ok (postSort t (pySortPairs t.descending (pairsOf t col))) := by
  unfold sort_cols
  rw [hitems]
  simp only [hnum, Bool.false_eq_true, if_false]

theorem sort_cols_ok_inv (t : Table) (col : Nat) (t1 : Table)
    (h : sort_cols t col = Except.ok t1) :
    ∃ first rest, t.items = first :: rest ∧
      ((looksNumeric (cellValue first col) = true ∧
        ∃ nd, mapParse (pairsOf t col) = some nd ∧
          t1 = postSort t (pySortPairs t.descending nd)) ∨
       (looksNumeric (cellValue first col) = false ∧
        t1 = postSort t (pySortPairs t.descending (pairsOf t col)))) := by
  cases hitems : t.items with
  | nil =>
    rw [sort_cols_empty t col hitems] at h
    exact absurd h (by simp)
  | cons first rest =>
    refine ⟨first, rest, rfl, ?_⟩
    cases hnum : looksNumeric (cellValue first col) with
    | true =>
      cases hparse : mapParse (pairsOf t col) with
      | none =>
        rw [sort_cols_numeric_fail t col first rest hitems hnum hparse] at h
        exact absurd h (by simp)
      | some nd =>
        rw [sort_cols_numeric t col first rest hitems hnum nd hparse] at h
        exact Or.inl ⟨rfl, nd, rfl, (Except.ok.injEq _ _ ▸ h).symm⟩
    | false =>
      rw [sort_cols_text t col first rest hitems hnum] at h
      exact Or.inr ⟨rfl, (Except.ok.injEq _ _ ▸ h).symm⟩

theorem postSort_descending {K : Type} [LinearOrder K] (t : Table)
    (sorted : List (K × Nat)) : (postSort t sorted).descending = !t.descending := rfl

theorem postSort_last_focus {K : Type} [LinearOrder K] (t : Table)
    (sorted : List (K × Nat)) : (postSort t sorted).last_focus = t.last_focus := rfl

theorem postSort_items {K : Type} [LinearOrder K] (t : Table) (sorted : List (K × Nat)) :
    (postSort t sorted).items = moveRetagFrom 0 (sorted.map Prod.snd) t.items := rfl

theorem sort_cols_last_focus (t : Table) (col : Nat) (t1 : Table)
    (h : sort_cols t col = Except.ok t1) : t1.last_focus = t.last_focus := by
  rcases sort_cols_ok_inv t col t1 h with ⟨f, r, hitems, hcase⟩
  rcases hcase with ⟨_, nd, _, rfl⟩ | ⟨_, rfl⟩ <;> rfl

theorem sort_cols_descending (t : Table) (col : Nat) (t1 : Table)
    (h : sort_cols t col = Except.ok t1) : t1.descending = !t.descending := by
  rcases sort_cols_ok_inv t col t1 h with ⟨f, r, hitems, hcase⟩
  rcases hcase with ⟨_, nd, _, rfl⟩ | ⟨_, rfl⟩ <;> rfl

theorem sort_cols_perm_iid (t : Table) (col : Nat) (t1 : Table)
    (hnd : (t.items.map Item.iid).Nodup)
    (h : sort_cols t col = Except.ok t1) :
    List.Perm (t1.items.map Item.iid) (t.items.map Item.iid) := by
  rcases sort_cols_ok_inv t col t1 h with ⟨f, r, hitems, hcase⟩
  rcases hcase with ⟨_, nd, hparse, rfl⟩ | ⟨_, rfl⟩
  · rw [postSort_items]
    have hndmap := mapParse_some_map _ nd hparse
    have hsnd : nd.map Prod.snd = t.items.map Item.iid := by
      rw [hndmap, List.map_map, ← pairsOf_map_snd t col]
      rfl
    have hperm : List.Perm ((pySortPairs t.descending nd).map Prod.snd)
        (t.items.map Item.iid) := by
      rw [← hsnd]
      exact (pySortPairs_perm t.descending nd).map Prod.snd
    rw [sortResult_map_iid _ t.items hnd hperm]
    exact hperm
  · rw [postSort_items]
    have hperm : List.Perm ((pySortPairs t.descending (pairsOf t col)).map Prod.snd)
        (t.items.map Item.iid) := by
      rw [← pairsOf_map_snd t col]
      exact (pySortPairs_perm t.descending _).map Prod.snd
    rw [sortResult_map_iid _ t.items hnd hperm]
    exact hperm

theorem sort_cols_shadeOK (t : Table) (col : Nat) (t1 : Table)
    (hnd : (t.items.map Item.iid).Nodup)
    (h : sort_cols t col = Except.ok t1) : shadeOK t1.items := by
  rcases sort_cols_ok_inv t col t1 h with ⟨f, r, hitems, hcase⟩
  rcases hcase with ⟨_, nd, hparse, rfl⟩ | ⟨_, rfl⟩
  · rw [postSort_items]
    have hndmap := mapParse_some_map _ nd hparse
    have hsnd : nd.map Prod.snd = t.items.map Item.iid := by
      rw [hndmap, List.map_map, ← pairsOf_map_snd t col]
      rfl
    have hperm : List.Perm ((pySortPairs t.descending nd).map Prod.snd)
        (t.items.map Item.iid) := by
      rw [← hsnd]
      exact (pySortPairs_perm t.descending nd).map Prod.snd
    exact sortResult_shadeOK _ t.items hnd hperm
  · rw [postSort_items]
    have hperm : List.Perm ((pySortPairs t.descending (pairsOf t col)).map Prod.snd)
        (t.items.map Item.iid) := by
      rw [← pairsOf_map_snd t col]
      exact (pySortPairs_perm t.descending _).map Prod.snd
    exact sortResult_shadeOK _ t.items hnd hperm
theorem insertRows_map_values (measure : String → Nat) :
    ∀ (rows : List (List String)) (odd : Bool) (i0 : Nat) (ws : List Nat),
      ((insertRows measure rows odd i0 ws).1).map Item.values = rows
  | [], _, _, _ => rfl
  | row :: rest, odd, i0, ws => by
    show (({ iid := i0, values := row, tags := [if odd then "oddrow" else "evenrow"] } : Item) ::
        (insertRows measure rest (!odd) (i0 + 1) (updateWidthsRow measure ws row)).1).map
          Item.values = row :: rest
    rw [List.map_cons, insertRows_map_values measure rest (!odd) (i0 + 1) _]

theorem insertRows_map_iid (measure : String → Nat) :
    ∀ (rows : List (List String)) (odd : Bool) (i0 : Nat) (ws : List Nat),
      ((insertRows measure rows odd i0 ws).1).map Item.iid = List.range' i0 rows.length
  | [], _, _, _ => rfl
  | row :: rest, odd, i0, ws => by
    show (({ iid := i0, values := row, tags := [if odd then "oddrow" else "evenrow"] } : Item) ::
        (insertRows measure rest (!odd) (i0 + 1) (updateWidthsRow measure ws row)).1).map
          Item.iid = List.range' i0 (row :: rest).length
    rw [List.map_cons, insertRows_map_iid measure rest (!odd) (i0 + 1) _]
    rfl

theorem true_beq_eq (b : Bool) : (true == b) = b := by cases b <;> rfl

theorem not_beq_eq (a b : Bool) : ((!a) == b) = (a == !b) := by
  cases a <;> cases b <;> rfl

theorem parity_flip (k : Nat) : decide ((k + 1) % 2 = 0) = !decide (k % 2 = 0) := by
  rcases Nat.mod_two_eq_zero_or_one k with h | h <;> simp [Nat.add_mod, h]

theorem insertRows_map_tags (measure : String → Nat) :
    ∀ (rows : List (List String)) (odd : Bool) (i0 : Nat) (ws : List Nat),
      ((insertRows measure rows odd i0 ws).1).map Item.tags =
        (List.range rows.length).map
          (fun k => [if (decide (k % 2 = 0)) == odd then "oddrow" else "evenrow"])
  | [], _, _, _ => rfl
  | row :: rest, odd, i0, ws => by
    show (({ iid := i0, values := row, tags := [if odd then "oddrow" else "evenrow"] } : Item) ::
        (insertRows measure rest (!odd) (i0 + 1) (updateWidthsRow measure ws row)).1).map
          Item.tags =
      (List.range (row :: rest).length).map
        (fun k => [if (decide (k % 2 = 0)) == odd then "oddrow" else "evenrow"])
    rw [List.map_cons, insertRows_map_tags measure rest (!odd) (i0 + 1) _]
    show _ = (List.range (rest.length + 1)).map
        (fun k => [if (decide (k % 2 = 0)) == odd then "oddrow" else "evenrow"])
    rw [List.range_succ_eq_map, List.map_cons, List.map_map]
    congr 1
    · rw [show (decide (0 % 2 = 0)) = true from rfl, true_beq_eq]
    · refine List.map_congr_left fun k _ => ?_
      show [if (decide (k % 2 = 0)) == !odd then "oddrow" else "evenrow"] =
        [if (decide ((k + 1) % 2 = 0)) == odd then "oddrow" else "evenrow"]
      rw [parity_flip, not_beq_eq]

theorem beq_true_shade (k : Nat) :
    (if (decide (k % 2 = 0)) == true then "oddrow" else "evenrow") = shadeTag k := by
  by_cases h : k % 2 = 0 <;> simp [h, shadeTag]

theorem insertRows_shadeOK (measure : String → Nat) (rows : List (List String))
    (i0 : Nat) (ws : List Nat) :
    shadeOK (insertRows measure rows true i0 ws).1 := by
  unfold shadeOK
  have hlen : (insertRows measure rows true i0 ws).1.length = rows.length := by
    have h := congrArg List.length (insertRows_map_values measure rows true i0 ws)
    simpa using h
  rw [hlen, insertRows_map_tags measure rows true i0 ws]
  unfold shadeTags
  exact List.map_congr_left fun k _ => by rw [beq_true_shade]

theorem insertRows_nodup_iid (measure : String → Nat) (rows : List (List String))
    (odd : Bool) (i0 : Nat) (ws : List Nat) :
    ((insertRows measure rows odd i0 ws).1.map Item.iid).Nodup := by
  rw [insertRows_map_iid]
  exact List.nodup_range' i0 rows.length

theorem init_table_items (measure : String → Nat) (cols : List String)
    (data : List (List String)) :
    (init_table measure cols data).items = (insertRows measure data true 0 (cols.map measure)).1 :=
  rfl

theorem init_table_descending (measure : String → Nat) (cols : List String)
    (data : List (List String)) : (init_table measure cols data).descending = true := rfl

theorem init_table_last_focus (measure : String → Nat) (cols : List String)
    (data : List (List String)) :
    (init_table measure cols data).last_focus = ⟨IidVal.pynone, none⟩ := rfl

theorem init_table_widths (measure : String → Nat) (cols : List String)
    (data : List (List String)) :
    (init_table measure cols data).widths = (insertRows measure data true 0 (cols.map measure)).2 :=
  rfl
theorem updateCell_length (measure : String → Nat) (ws : List Nat) (idx : Nat)
    (val : String) : (updateCell measure ws idx val).length = ws.length := by
  unfold updateCell
  by_cases h : ws.getD idx 0 < measure val
  · rw [if_pos h, List.length_set]
  · rw [if_neg h]

theorem getD_set_nat (ws : List Nat) (i j a : Nat) :
    (ws.set i a).getD j 0 = if i = j ∧ j < ws.length then a else ws.getD j 0 := by
  rw [List.getD_eq_getElem?_getD, List.getD_eq_getElem?_getD, List.getElem?_set]
  by_cases hij : i = j
  · subst hij
    by_cases hlt : i < ws.length
    · rw [if_pos rfl, if_pos hlt, if_pos ⟨rfl, hlt⟩]
      rfl
    · rw [if_pos rfl, if_neg hlt, if_neg fun hc => hlt hc.2,
        List.getElem?_eq_none (Nat.le_of_not_lt hlt)]
  · rw [if_neg hij, if_neg fun hc => hij hc.1]

theorem updateCell_getD_le (measure : String → Nat) (ws : List Nat) (idx : Nat)
    (val : String) (j : Nat) :
    ws.getD j 0 ≤ (updateCell measure ws idx val).getD j 0 := by
  unfold updateCell
  by_cases h : ws.getD idx 0 < measure val
  · rw [if_pos h, getD_set_nat]
    by_cases hij : idx = j ∧ j < ws.length
    · rw [if_pos hij]
      rcases hij with ⟨rfl, _⟩
      exact Nat.le_of_lt h
    · rw [if_neg hij]
  · rw [if_neg h]

theorem updateCell_getD_bound (measure : String → Nat) (ws : List Nat) (idx : Nat)
    (val : String) (h : idx < ws.length) :
    measure val ≤ (updateCell measure ws idx val).getD idx 0 := by
  unfold updateCell
  by_cases hlt : ws.getD idx 0 < measure val
  · rw [if_pos hlt, getD_set_nat, if_pos ⟨rfl, h⟩]
  · rw [if_neg hlt]
    exact Nat.le_of_not_lt hlt

theorem updateWidthsFrom_getD_le (measure : String → Nat) :
    ∀ (row : List String) (idx : Nat) (ws : List Nat) (j : Nat),
      ws.getD j 0 ≤ (updateWidthsFrom measure idx ws row).getD j 0
  | [], _, _, _ => le_rfl
  | val :: rest, idx, ws, j =>
    (updateCell_getD_le measure ws idx val j).trans
      (updateWidthsFrom_getD_le measure rest (idx + 1) (updateCell measure ws idx val) j)

theorem updateWidthsFrom_length (measure : String → Nat) :
    ∀ (row : List String) (idx : Nat) (ws : List Nat),
      (updateWidthsFrom measure idx ws row).length = ws.length
  | [], _, _ => rfl
  | val :: rest, idx, ws => by
    show (updateWidthsFrom measure (idx + 1) (updateCell measure ws idx val) rest).length =
      ws.length
    rw [updateWidthsFrom_length measure rest (idx + 1) _, updateCell_length]

theorem updateWidthsFrom_bound (measure : String → Nat) :
    ∀ (row : List String) (idx : Nat) (ws : List Nat) (k : Nat), k < row.length →
      idx + k < ws.length →
      measure (row.getD k "") ≤ (updateWidthsFrom measure idx ws row).getD (idx + k) 0
  | [], _, _, k, hk, _ => absurd hk (by simp)
  | val :: rest, idx, ws, 0, _, hlen => by
    show measure val ≤
      (updateWidthsFrom measure (idx + 1) (updateCell measure ws idx val) rest).getD (idx + 0) 0
    rw [Nat.add_zero]
    exact (updateCell_getD_bound measure ws idx val (by simpa using hlen)).trans
      (updateWidthsFrom_getD_le measure rest (idx + 1) _ idx)
  | val :: rest, idx, ws, k + 1, hk, hlen => by
    have h2 : (idx + 1) + k < (updateCell measure ws idx val).length := by
      rw [updateCell_length]
      omega
    have h3 := updateWidthsFrom_bound measure rest (idx + 1) (updateCell measure ws idx val) k
      (by simpa using hk) h2
    show measure (rest.getD k "") ≤
      (updateWidthsFrom measure (idx + 1) (updateCell measure ws idx val) rest).getD
        (idx + (k + 1)) 0
    rw [show idx + (k + 1) = (idx + 1) + k by omega]
    exact h3

theorem insertRows_widths_le (measure : String → Nat) :
    ∀ (rows : List (List String)) (odd : Bool) (i0 : Nat) (ws : List Nat) (j : Nat),
      ws.getD j 0 ≤ ((insertRows measure rows odd i0 ws).2).getD j 0
  | [], _, _, _, _ => le_rfl
  | row :: rest, odd, i0, ws, j =>
    (updateWidthsFrom_getD_le measure row 0 ws j).trans
      (insertRows_widths_le measure rest (!odd) (i0 + 1) (updateWidthsRow measure ws row) j)

theorem insertRows_widths_length (measure : String → Nat) :
    ∀ (rows : List (List String)) (odd : Bool) (i0 : Nat) (ws : List Nat),
      ((insertRows measure rows odd i0 ws).2).length = ws.length
  | [], _, _, _ => rfl
  | row :: rest, odd, i0, ws => by
    show ((insertRows measure rest (!odd) (i0 + 1) (updateWidthsRow measure ws row)).2).length =
      ws.length
    rw [insertRows_widths_length measure rest (!odd) (i0 + 1) _]
    exact updateWidthsFrom_length measure row 0 ws

theorem insertRows_widths_bound (measure : String → Nat) :
    ∀ (rows : List (List String)) (odd : Bool) (i0 : Nat) (ws : List Nat),
      ∀ row ∈ rows, ∀ k, k < row.length → k < ws.length →
        measure (row.getD k "") ≤ ((insertRows measure rows odd i0 ws).2).getD k 0 := by
  intro rows
  induction rows with
  | nil => intro _ _ _ row hrow; simp at hrow
  | cons row0 rest ih =>
    intro odd i0 ws row hrow k hk hkw
    rcases List.mem_cons.1 hrow with rfl | hmem
    · have h1 : measure (row.getD k "") ≤ (updateWidthsRow measure ws row).getD k 0 := by
        have := updateWidthsFrom_bound measure row 0 ws k hk (by simpa using hkw)
        simpa [updateWidthsRow] using this
      exact h1.trans (insertRows_widths_le measure rest (!odd) (i0 + 1) _ k)
    · have hkw2 : k < (updateWidthsRow measure ws row0).length := by
        unfold updateWidthsRow
        rw [updateWidthsFrom_length]
        exact hkw
      exact ih (!odd) (i0 + 1) (updateWidthsRow measure ws row0) row hmem k hk hkw2
theorem highlight_row_same (t : Table) (target : Option Nat)
    (h : iidValOfTarget target = t.last_focus.iid) : highlight_row t target = t := by
  unfold highlight_row
  rw [if_pos h]

theorem highlight_row_from_iid (t : Table) (target : Option Nat) (p : Nat)
    (hfoc : t.last_focus.iid = IidVal.iid p)
    (h : iidValOfTarget target ≠ IidVal.iid p) :
    highlight_row t target =
      { setTagsOf (setTagsOf t (IidVal.iid p) (t.last_focus.tags.getD []))
          (iidValOfTarget target) ["hovered_row"] with
        last_focus := ⟨iidValOfTarget target,
          some (getTagsOf (setTagsOf t (IidVal.iid p) (t.last_focus.tags.getD []))
            (iidValOfTarget target))⟩ } := by
  unfold highlight_row
  rw [hfoc, if_neg h]

theorem highlight_row_from_nonitem (t : Table) (target : Option Nat)
    (hfoc : t.last_focus.iid.truthy = false)
    (h : iidValOfTarget target ≠ t.last_focus.iid) :
    highlight_row t target =
      { setTagsOf t (iidValOfTarget target) ["hovered_row"] with
        last_focus := ⟨iidValOfTarget target,
          some (getTagsOf t (iidValOfTarget target))⟩ } := by
  unfold highlight_row
  rw [if_neg h]
  cases hv : t.last_focus.iid with
  | pynone => rfl
  | empty => rfl
  | iid p =>
    rw [hv] at hfoc
    exact absurd hfoc (by simp [IidVal.truthy])

theorem setTagsOf_iid_items (t : Table) (p : Nat) (ts : List String) :
    (setTagsOf t (IidVal.iid p) ts).items = setItemTags t.items p ts := rfl

theorem setTagsOf_empty_items (t : Table) (ts : List String) :
    (setTagsOf t IidVal.empty ts).items = t.items := rfl

theorem setTagsOf_last_focus (t : Table) (v : IidVal) (ts : List String) :
    (setTagsOf t v ts).last_focus = t.last_focus := by
  cases v <;> rfl

theorem setTagsOf_items_nodup (t : Table) (v : IidVal) (ts : List String)
    (hnd : (t.items.map Item.iid).Nodup) :
    ((setTagsOf t v ts).items.map Item.iid).Nodup := by
  cases v with
  | pynone => exact hnd
  | empty => exact hnd
  | iid p => rw [setTagsOf_iid_items, setItemTags_map_iid]; exact hnd

theorem mem_setItemTags (items : List Item) (p : Nat) (ts : List String) (it : Item)
    (hit : it ∈ setItemTags items p ts) :
    ∃ x ∈ items, it = if x.iid = p then { x with tags := ts } else x := by
  rcases List.mem_map.1 hit with ⟨x, hx, hxe⟩
  refine ⟨x, hx, ?_⟩
  rw [← hxe]
  by_cases hxp : x.iid = p <;> simp [hxp]
theorem insertRows_tags_shade (measure : String → Nat) (rows : List (List String))
    (odd : Bool) (i0 : Nat) (ws : List Nat) (it : Item)
    (hit : it ∈ (insertRows measure rows odd i0 ws).1) :
    it.tags = ["oddrow"] ∨ it.tags = ["evenrow"] := by
  have h1 : it.tags ∈ ((insertRows measure rows odd i0 ws).1).map Item.tags :=
    List.mem_map_of_mem Item.tags hit
  rw [insertRows_map_tags] at h1
  rcases List.mem_map.1 h1 with ⟨k, _, hk⟩
  by_cases hb : ((decide (k % 2 = 0)) == odd) = true
  · rw [if_pos hb] at hk
    exact Or.inl hk.symm
  · rw [if_neg hb] at hk
    exact Or.inr hk.symm

theorem shadeOK_no_hover (items : List Item) (h : shadeOK items) (it : Item)
    (hit : it ∈ items) : "hovered_row" ∉ it.tags := by
  have h1 : it.tags ∈ items.map Item.tags := List.mem_map_of_mem Item.tags hit
  rw [h] at h1
  unfold shadeTags at h1
  rcases List.mem_map.1 h1 with ⟨k, _, hk⟩
  rw [← hk]
  unfold shadeTag
  by_cases hp : k % 2 = 0
  · rw [if_pos hp]
    simp
  · rw [if_neg hp]
    simp

theorem Inv_init (measure : String → Nat) (cols : List String)
    (data : List (List String)) : Inv (init_table measure cols data) where
  nodup := insertRows_nodup_iid measure data true 0 (cols.map measure)
  hover_focus := fun it hit hmem => by
    rcases insertRows_tags_shade measure data true 0 (cols.map measure) it hit with h | h <;>
      rw [h] at hmem <;> simp at hmem
  saved_no_hover := fun p ts hfoc _ => by
    rw [init_table_last_focus] at hfoc
    exact absurd hfoc (by simp)
  saved_present := fun p hfoc => by
    rw [init_table_last_focus] at hfoc
    exact absurd hfoc (by simp)

theorem Inv_sort (t : Table) (col : Nat) (t1 : Table) (hInv : Inv t)
    (h : sort_cols t col = Except.ok t1) : Inv t1 := by
  have hperm := sort_cols_perm_iid t col t1 hInv.nodup h
  have hshade := sort_cols_shadeOK t col t1 hInv.nodup h
  have hfocus := sort_cols_last_focus t col t1 h
  exact
    { nodup := hperm.symm.nodup hInv.nodup
      hover_focus := fun it hit hmem =>
        absurd hmem (shadeOK_no_hover t1.items hshade it hit)
      saved_no_hover := fun p ts hfoc hts =>
        hInv.saved_no_hover p ts (hfocus ▸ hfoc) (hfocus ▸ hts)
      saved_present := fun p hfoc => by
        have h2 := hInv.saved_present p (hfocus ▸ hfoc)
        exact ⟨hfocus ▸ h2.1, hperm.mem_iff.2 h2.2⟩ }
theorem no_hover_of_focus_nonitem (t : Table) (hInv : Inv t)
    (hfoc : t.last_focus.iid.truthy = false) :
    ∀ it ∈ t.items, "hovered_row" ∉ it.tags := by
  intro it hit hmem
  have h2 := hInv.hover_focus it hit hmem
  rw [h2] at hfoc
  simp [IidVal.truthy] at hfoc

theorem no_hover_after_restore (t : Table) (hInv : Inv t) (p : Nat)
    (hfoc : t.last_focus.iid = IidVal.iid p) :
    ∀ it ∈ setItemTags t.items p (t.last_focus.tags.getD []),
      "hovered_row" ∉ it.tags := by
  intro it hit hmem
  rcases mem_setItemTags _ _ _ _ hit with ⟨x, hx, hxe⟩
  by_cases hxp : x.iid = p
  · rw [if_pos hxp] at hxe
    rcases (hInv.saved_present p hfoc).1 with ⟨ts, hts⟩
    rw [hxe, hts] at hmem
    exact hInv.saved_no_hover p ts hfoc hts (by simpa using hmem)
  · rw [if_neg hxp] at hxe
    rw [hxe] at hmem
    have h2 := hInv.hover_focus x hx hmem
    rw [hfoc] at h2
    have h3 : p = x.iid := by
      have := h2
      simp only [IidVal.iid.injEq] at this
      exact this
    exact hxp h3.symm

theorem getTagsOf_eq_of_mem (t2 : Table) (n : Nat) (hmem : n ∈ t2.items.map Item.iid) :
    ∃ it ∈ t2.items, it.iid = n ∧ getTagsOf t2 (IidVal.iid n) = it.tags := by
  rcases find?_iid_eq_some t2.items n hmem with ⟨it, hfind, hiid⟩
  exact ⟨it, List.mem_of_find?_eq_some hfind, hiid, by simp [getTagsOf, hfind]⟩

theorem Inv_motion (t : Table) (target : Option Nat) (hInv : Inv t)
    (hvalid : ∀ n, target = some n → n ∈ t.items.map Item.iid) :
    Inv (highlight_row t target) := by
  by_cases hsame : iidValOfTarget target = t.last_focus.iid
  · rw [highlight_row_same t target hsame]
    exact hInv
  · cases hfoc : t.last_focus.iid with
    | iid p =>
      rw [highlight_row_from_iid t target p hfoc (fun he => hsame (hfoc ▸ he))]
      cases target with
      | none =>
        refine ⟨?_, ?_, ?_, ?_⟩
        · show ((setItemTags t.items p (t.last_focus.tags.getD [])).map Item.iid).Nodup
          rw [setItemTags_map_iid]
          exact hInv.nodup
        · intro it hit hmem
          exact absurd hmem (no_hover_after_restore t hInv p hfoc it hit)
        · intro p2 ts hf2 _
          exact absurd hf2 (by simp [iidValOfTarget])
        · intro p2 hf2
          exact absurd hf2 (by simp [iidValOfTarget])
      | some n =>
        have hnp : n ≠ p := fun he =>
          hsame (by rw [hfoc]; simp [iidValOfTarget, he])
        have hnmem : n ∈ t.items.map Item.iid := hvalid n rfl
        have ht1items :
            (setTagsOf t (IidVal.iid p) (t.last_focus.tags.getD [])).items =
              setItemTags t.items p (t.last_focus.tags.getD []) := rfl
        have hnmem1 : n ∈ (setTagsOf t (IidVal.iid p) (t.last_focus.tags.getD [])).items.map
            Item.iid := by
          rw [ht1items, setItemTags_map_iid]
          exact hnmem
        rcases getTagsOf_eq_of_mem _ n hnmem1 with ⟨itn, hitn, hitniid, hitntags⟩
        refine ⟨?_, ?_, ?_, ?_⟩
        · show ((setItemTags (setItemTags t.items p (t.last_focus.tags.getD [])) n
            ["hovered_row"]).map Item.iid).Nodup
          rw [setItemTags_map_iid, setItemTags_map_iid]
          exact hInv.nodup
        · intro it hit hmem
          rcases mem_setItemTags _ _ _ _ hit with ⟨y, hy, hye⟩
          by_cases hyn : y.iid = n
          · rw [if_pos hyn] at hye
            show iidValOfTarget (some n) = IidVal.iid it.iid
            rw [hye]
            simp [iidValOfTarget, hyn]
          · rw [if_neg hyn] at hye
            rw [hye] at hmem
            exact absurd hmem (no_hover_after_restore t hInv p hfoc y (ht1items ▸ hy))
        · intro p2 ts hf2 hts2
          have hp2 : p2 = n := by
            simp only [iidValOfTarget, IidVal.iid.injEq] at hf2
            exact hf2.symm
          have hts3 : ts = getTagsOf (setTagsOf t (IidVal.iid p) (t.last_focus.tags.getD []))
              (IidVal.iid n) := by
            simp only [Option.some.injEq] at hts2
            exact hts2.symm
          rw [hts3, hitntags]
          exact no_hover_after_restore t hInv p hfoc itn (ht1items ▸ hitn)
        · intro p2 hf2
          have hp2 : p2 = n := by
            simp only [iidValOfTarget, IidVal.iid.injEq] at hf2
            exact hf2.symm
          refine ⟨⟨_, rfl⟩, ?_⟩
          show p2 ∈ ((setItemTags (setItemTags t.items p (t.last_focus.tags.getD [])) n
            ["hovered_row"]).map Item.iid)
          rw [setItemTags_map_iid, setItemTags_map_iid, hp2]
          exact hnmem
    | pynone =>
      rw [highlight_row_from_nonitem t target (by rw [hfoc]; rfl) hsame]
      cases target with
      | none =>
        refine ⟨hInv.nodup, ?_, ?_, ?_⟩
        · intro it hit hmem
          exact absurd hmem
            (no_hover_of_focus_nonitem t hInv (by rw [hfoc]; rfl) it hit)
        · intro p2 ts hf2 _
          exact absurd hf2 (by simp [iidValOfTarget])
        · intro p2 hf2
          exact absurd hf2 (by simp [iidValOfTarget])
      | some n =>
        have hnmem : n ∈ t.items.map Item.iid := hvalid n rfl
        rcases getTagsOf_eq_of_mem t n hnmem with ⟨itn, hitn, hitniid, hitntags⟩
        refine ⟨?_, ?_, ?_, ?_⟩
        · show ((setItemTags t.items n ["hovered_row"]).map Item.iid).Nodup
          rw [setItemTags_map_iid]
          exact hInv.nodup
        · intro it hit hmem
          rcases mem_setItemTags _ _ _ _ hit with ⟨y, hy, hye⟩
          by_cases hyn : y.iid = n
          · rw [if_pos hyn] at hye
            show iidValOfTarget (some n) = IidVal.iid it.iid
            rw [hye]
            simp [iidValOfTarget, hyn]
          · rw [if_neg hyn] at hye
            rw [hye] at hmem
            exact absurd hmem
              (no_hover_of_focus_nonitem t hInv (by rw [hfoc]; rfl) y hy)
        · intro p2 ts hf2 hts2
          have hts3 : ts = getTagsOf t (IidVal.iid n) := by
            simp only [Option.some.injEq] at hts2
            exact hts2.symm
          rw [hts3, hitntags]
          exact no_hover_of_focus_nonitem t hInv (by rw [hfoc]; rfl) itn hitn
        · intro p2 hf2
          have hp2 : p2 = n := by
            simp only [iidValOfTarget, IidVal.iid.injEq] at hf2
            exact hf2.symm
          refine ⟨⟨_, rfl⟩, ?_⟩
          show p2 ∈ ((setItemTags t.items n ["hovered_row"]).map Item.iid)
          rw [setItemTags_map_iid, hp2]
          exact hnmem
    | empty =>
      rw [highlight_row_from_nonitem t target (by rw [hfoc]; rfl) hsame]
      cases target with
      | none =>
        exact absurd (hfoc ▸ rfl : iidValOfTarget none = t.last_focus.iid) hsame
      | some n =>
        have hnmem : n ∈ t.items.map Item.iid := hvalid n rfl
        rcases getTagsOf_eq_of_mem t n hnmem with ⟨itn, hitn, hitniid, hitntags⟩
        refine ⟨?_, ?_, ?_, ?_⟩
        · show ((setItemTags t.items n ["hovered_row"]).map Item.iid).Nodup
          rw [setItemTags_map_iid]
          exact hInv.nodup
        · intro it hit hmem
          rcases mem_setItemTags _ _ _ _ hit with ⟨y, hy, hye⟩
          by_cases hyn : y.iid = n
          · rw [if_pos hyn] at hye
            show iidValOfTarget (some n) = IidVal.iid it.iid
            rw [hye]
            simp [iidValOfTarget, hyn]
          · rw [if_neg hyn] at hye
            rw [hye] at hmem
            exact absurd hmem
              (no_hover_of_focus_nonitem t hInv (by rw [hfoc]; rfl) y hy)
        · intro p2 ts hf2 hts2
          have hts3 : ts = getTagsOf t (IidVal.iid n) := by
            simp only [Option.some.injEq] at hts2
            exact hts2.symm
          rw [hts3, hitntags]
          exact no_hover_of_focus_nonitem t hInv (by rw [hfoc]; rfl) itn hitn
        · intro p2 hf2
          have hp2 : p2 = n := by
            simp only [iidValOfTarget, IidVal.iid.injEq] at hf2
            exact hf2.symm
          refine ⟨⟨_, rfl⟩, ?_⟩
          show p2 ∈ ((setItemTags t.items n ["hovered_row"]).map Item.iid)
          rw [setItemTags_map_iid, hp2]
          exact hnmem

theorem Reach_Inv (t : Table) (h : Reach t) : Inv t := by
  induction h with
  | base measure cols data => exact Inv_init measure cols data
  | sort t col t1 _ hok ih => exact Inv_sort t col t1 ih hok
  | motion t target _ hvalid ih => exact Inv_motion t target ih hvalid
theorem countP_map_iid (items : List Item) (p : Nat) :
    items.countP (fun it => it.iid == p) = (items.map Item.iid).count p := by
  rw [List.count, List.countP_map]
  rfl

theorem hoverCount_le_one (t : Table) (hInv : Inv t) : hoverCount t ≤ 1 := by
  unfold hoverCount
  cases hfoc : t.last_focus.iid with
  | iid p =>
    have h1 : t.items.countP (fun it => decide ("hovered_row" ∈ it.tags)) ≤
        t.items.countP (fun it => it.iid == p) := by
      refine List.countP_mono_left fun it hit hp => ?_
      have h2 := hInv.hover_focus it hit (of_decide_eq_true hp)
      rw [hfoc] at h2
      simp only [IidVal.iid.injEq] at h2
      simp [h2]
    refine h1.trans ?_
    rw [countP_map_iid]
    exact (List.nodup_iff_count_le_one.1 hInv.nodup) p
  | pynone =>
    have h0 : t.items.countP (fun it => decide ("hovered_row" ∈ it.tags)) = 0 :=
      List.countP_eq_zero.2 fun it hit => by
        simpa using no_hover_of_focus_nonitem t hInv (by rw [hfoc]; rfl) it hit
    rw [h0]
    exact Nat.zero_le 1
  | empty =>
    have h0 : t.items.countP (fun it => decide ("hovered_row" ∈ it.tags)) = 0 :=
      List.countP_eq_zero.2 fun it hit => by
        simpa using no_hover_of_focus_nonitem t hInv (by rw [hfoc]; rfl) it hit
    rw [h0]
    exact Nat.zero_le 1
theorem sort_cols_keys_text (t : Table) (col : Nat)
    (hnd : (t.items.map Item.iid).Nodup) :
    (postSort t (pySortPairs t.descending (pairsOf t col))).items.map
        (fun it => (cellValue it col, it.iid)) =
      pySortPairs t.descending (pairsOf t col) := by
  rw [postSort_items]
  exact sortResult_map_key (fun it => cellValue it col) (fun it ts => rfl) t.items hnd
    _ (pySortPairs_perm _ _)

theorem mapParse_some_as_numKey (t : Table) (col : Nat) (nd : List (QInf × Nat))
    (hparse : mapParse (pairsOf t col) = some nd) :
    nd = t.items.map fun it => (numKey col it, it.iid) := by
  rw [mapParse_some_map _ nd hparse]
  unfold pairsOf
  rw [List.map_map]
  rfl

theorem sort_cols_keys_num (t : Table) (col : Nat) (nd : List (QInf × Nat))
    (hnd : (t.items.map Item.iid).Nodup)
    (hparse : mapParse (pairsOf t col) = some nd) :
    (postSort t (pySortPairs t.descending nd)).items.map
        (fun it => (numKey col it, it.iid)) =
      pySortPairs t.descending nd := by
  rw [postSort_items]
  refine sortResult_map_key (numKey col) (fun it ts => rfl) t.items hnd _ ?_
  rw [← mapParse_some_as_numKey t col nd hparse]
  exact pySortPairs_perm _ _

theorem branchNumeric_of_items (t : Table) (col : Nat) (first : Item) (rest : List Item)
    (hitems : t.items = first :: rest) :
    branchNumeric t col = looksNumeric (cellValue first col) := by
  unfold branchNumeric
  rw [hitems]
/-! ### The claims -/

/-- C1 (corrected) — counterexample: sorting a freshly constructed table
with zero rows does not succeed: line 107 (`data[0]`) raises `IndexError`,
so the sort fails and the direction flag is never toggled, contradicting
the claim that the empty-table sort does not fail and still toggles the
flag. -/
theorem C1_counterexample :
    sort_cols (init_table (fun _ => 0) ["A"] []) 0 = Except.error PyErr.indexError := rfl

/-- C1 (amended): on any table with zero rows, `sort_cols` raises
`IndexError` while sampling the first row (`data[0][0][0:1]` on line 107);
the exception is raised before any mutation, so the table still has zero
rows and the direction flag is NOT toggled — the flip on line 121 is never
reached and the error return carries no successor state. -/
theorem C1_amended (t : Table) (col : Nat) (h : t.items = []) :
    sort_cols t col = Except.error PyErr.indexError :=
  sort_cols_empty t col h

theorem C1_amended_witness :
    (init_table (fun _ => 0) ["B"] []).items = [] ∧
      sort_cols (init_table (fun _ => 0) ["B"] []) 0 = Except.error PyErr.indexError :=
  ⟨rfl, C1_amended (init_table (fun _ => 0) ["B"] []) 0 rfl⟩

/-- C2 (corrected) — counterexample: with first value `""` the claim says
values are compared as text, but the code's check `""[0:1] in "0123456789"`
is a substring test that accepts the empty slice, so the numeric branch is
taken and `float("")` raises `ValueError`: the sort fails instead of
comparing lexicographically. -/
theorem C2_counterexample :
    firstCharDigit "" = false ∧ looksNumeric "" = true ∧
      sort_cols demoEmptyVal 0 = Except.error PyErr.valueError :=
  ⟨rfl, rfl, rfl⟩

/-- C2 (amended): the branch decision is made once per sort from the first
displayed row's value alone, but the source check passes when that value is
empty OR its first character is an ASCII digit (not the spec's bare
first-character test). When the check passes, every value in the column is
parsed (`ValueError` at the first failure), and the rows are reordered by
the stable sort of the (parsed value, identifier) pairs; when it fails,
rows are reordered by the stable sort of the (text value, identifier)
pairs — lexicographic comparison. -/
theorem C2_amended (t : Table) (col : Nat) (first : Item) (rest : List Item)
    (hitems : t.items = first :: rest)
    (hnd : (t.items.map Item.iid).Nodup) :
    (∀ s : String, looksNumeric s = true ↔ (s.toList = [] ∨ firstCharDigit s = true)) ∧
    (looksNumeric (cellValue first col) = true →
      ∀ nd, mapParse (pairsOf t col) = some nd →
        sort_cols t col = Except.ok (postSort t (pySortPairs t.descending nd)) ∧
        (postSort t (pySortPairs t.descending nd)).items.map
            (fun it => (numKey col it, it.iid)) = pySortPairs t.descending nd) ∧
    (looksNumeric (cellValue first col) = true →
      mapParse (pairsOf t col) = none →
        sort_cols t col = Except.error PyErr.valueError) ∧
    (looksNumeric (cellValue first col) = false →
      sort_cols t col = Except.ok (postSort t (pySortPairs t.descending (pairsOf t col))) ∧
      (postSort t (pySortPairs t.descending (pairsOf t col))).items.map
          (fun it => (cellValue it col, it.iid)) = pySortPairs t.descending (pairsOf t col)) := by
  refine ⟨?_, ?_, ?_, ?_⟩
  · intro s
    unfold looksNumeric pyInDigits firstCharDigit
    cases hc : s.toList with
    | nil => simp
    | cons c cs => simp
  · intro hnum nd hparse
    exact ⟨sort_cols_numeric t col first rest hitems hnum nd hparse,
      sort_cols_keys_num t col nd hnd hparse⟩
  · intro hnum hparse
    exact sort_cols_numeric_fail t col first rest hitems hnum hparse
  · intro hnum
    exact ⟨sort_cols_text t col first rest hitems hnum, sort_cols_keys_text t col hnd⟩

theorem C2_amended_witness :
    (demoNum.items = ⟨0, ["1"], ["oddrow"]⟩ :: [⟨1, ["2"], ["evenrow"]⟩] ∧
      (demoNum.items.map Item.iid).Nodup) ∧
    (∀ s : String, looksNumeric s = true ↔ (s.toList = [] ∨ firstCharDigit s = true)) :=
  ⟨⟨rfl, by decide⟩,
   (C2_amended demoNum 0 ⟨0, ["1"], ["oddrow"]⟩ [⟨1, ["2"], ["evenrow"]⟩] rfl (by decide)).1⟩

/-- C4: after construction and after every completed sort (on items with
distinct identifiers, as the widget guarantees), the row at display
position i carries exactly the tag "oddrow" for even i and "evenrow" for
odd i, re-derived from the new positions with any previous tags (including
a lingering hover tag) overwritten; adjacent rows therefore never share a
shade. -/
theorem C4_shade_alternation (measure : String → Nat) (cols : List String)
    (data : List (List String)) (t : Table) (col : Nat) (t1 : Table)
    (hnd : (t.items.map Item.iid).Nodup)
    (hok : sort_cols t col = Except.ok t1) :
    shadeOK (init_table measure cols data).items ∧ shadeOK t1.items :=
  ⟨insertRows_shadeOK measure data 0 (cols.map measure),
   sort_cols_shadeOK t col t1 hnd hok⟩

theorem C4_witness :
    ((demoText.items.map Item.iid).Nodup ∧
      sort_cols demoText 0 = Except.ok (sortOnce demoText 0)) ∧
    (shadeOK (init_table (fun _ => 0) ["A"] [["x"], ["y"]]).items ∧
      shadeOK (sortOnce demoText 0).items) :=
  ⟨⟨by decide, by with_unfolding_all rfl⟩,
   C4_shade_alternation (fun _ => 0) ["A"] [["x"], ["y"]] demoText 0 (sortOnce demoText 0)
     (by decide) (by with_unfolding_all rfl)⟩

/-- C5: if the digit-prefix numeric check passes but some row's value in
the clicked column fails to parse as a float, the sort raises `ValueError`
which propagates (no fallback to lexicographic comparison); conversely,
when the check fails or every value parses, the sort completes and raises
no parse error. -/
theorem C5_numeric_parse_failure (t : Table) (col : Nat) (first : Item) (rest : List Item)
    (hitems : t.items = first :: rest) :
    (looksNumeric (cellValue first col) = true →
      (∃ it ∈ t.items, pyFloat (cellValue it col) = none) →
        sort_cols t col = Except.error PyErr.valueError) ∧
    ((looksNumeric (cellValue first col) = false ∨
        ∀ it ∈ t.items, (pyFloat (cellValue it col)).isSome) →
      ∃ t1, sort_cols t col = Except.ok t1) := by
  constructor
  · rintro hnum ⟨it, hit, hnone⟩
    refine sort_cols_numeric_fail t col first rest hitems hnum ?_
    refine (mapParse_none_iff _).2 ⟨(cellValue it col, it.iid), ?_, hnone⟩
    exact List.mem_map_of_mem _ hit
  · intro h
    rcases h with hfalse | hall
    · exact ⟨_, sort_cols_text t col first rest hitems hfalse⟩
    · cases hnum : looksNumeric (cellValue first col) with
      | false => exact ⟨_, sort_cols_text t col first rest hitems hnum⟩
      | true =>
        cases hparse : mapParse (pairsOf t col) with
        | none =>
          rcases (mapParse_none_iff _).1 hparse with ⟨p, hp, hpn⟩
          unfold pairsOf at hp
          rcases List.mem_map.1 hp with ⟨it, hit, rfl⟩
          have hsome := hall it hit
          have hcv : pyFloat (cellValue it col) = none := hpn
          rw [hcv] at hsome
          exact absurd hsome (by simp)
        | some nd => exact ⟨_, sort_cols_numeric t col first rest hitems hnum nd hparse⟩

theorem C5_witness :
    demoParse.items = ⟨0, ["1"], ["oddrow"]⟩ :: [⟨1, ["x"], ["evenrow"]⟩] ∧
      sort_cols demoParse 0 = Except.error PyErr.valueError :=
  ⟨rfl,
    (C5_numeric_parse_failure demoParse 0 ⟨0, ["1"], ["oddrow"]⟩ [⟨1, ["x"], ["evenrow"]⟩]
      rfl).1 rfl ⟨⟨1, ["x"], ["evenrow"]⟩, by decide, rfl⟩⟩

/-- C9: after construction the displayed row count equals the input row
count and every row's displayed cells are exactly its input values in
column order, in input order (rows are inserted verbatim at the end, one by
one). -/
theorem C9_construction (measure : String → Nat) (cols : List String)
    (data : List (List String)) (hlen : ∀ row ∈ data, row.length = cols.length) :
    (init_table measure cols data).items.map Item.values = data ∧
    (init_table measure cols data).items.length = data.length := by
  constructor
  · rw [init_table_items]
    exact insertRows_map_values measure data true 0 (cols.map measure)
  · rw [init_table_items]
    have h := congrArg List.length (insertRows_map_values measure data true 0 (cols.map measure))
    simpa using h

theorem C9_witness :
    (∀ row ∈ [["a"], ["b"]], row.length = (["A"] : List String).length) ∧
      (init_table (fun _ => 0) ["A"] [["a"], ["b"]]).items.map Item.values = [["a"], ["b"]] :=
  ⟨by decide, (C9_construction (fun _ => 0) ["A"] [["a"], ["b"]] (by decide)).1⟩
/-- C8: after construction every column is at least as wide as its rendered
header and as every rendered cell in it (given well-formed rows), and the
width updates during insertion only ever widen, never narrow. -/
theorem C8_column_widths (measure : String → Nat) (cols : List String)
    (data : List (List String)) (hlen : ∀ row ∈ data, row.length = cols.length) :
    (∀ j, j < cols.length →
      measure (cols.getD j "") ≤ (init_table measure cols data).widths.getD j 0) ∧
    (∀ row ∈ data, ∀ j, j < row.length →
      measure (row.getD j "") ≤ (init_table measure cols data).widths.getD j 0) ∧
    (∀ ws row j, ws.getD j 0 ≤ (updateWidthsRow measure ws row).getD j 0) ∧
    (∀ ws idx val j, ws.getD j 0 ≤ (updateCell measure ws idx val).getD j 0) := by
  refine ⟨?_, ?_, ?_, ?_⟩
  · intro j hj
    rw [init_table_widths]
    have h0 : (cols.map measure).getD j 0 = measure (cols.getD j "") := by
      rw [List.getD_eq_getElem?_getD, List.getD_eq_getElem?_getD, List.getElem?_map,
        List.getElem?_eq_getElem hj]
      rfl
    rw [← h0]
    exact insertRows_widths_le measure data true 0 (cols.map measure) j
  · intro row hrow j hj
    rw [init_table_widths]
    refine insertRows_widths_bound measure data true 0 (cols.map measure) row hrow j hj ?_
    rw [List.length_map, ← hlen row hrow]
    exact hj
  · intro ws row j
    exact updateWidthsFrom_getD_le measure row 0 ws j
  · intro ws idx val j
    exact updateCell_getD_le measure ws idx val j

theorem C8_witness :
    (∀ row ∈ [["xx"]], row.length = (["A"] : List String).length) ∧
      String.length ((["A"] : List String).getD 0 "") ≤
        (init_table String.length ["A"] [["xx"]]).widths.getD 0 0 :=
  ⟨by decide, (C8_column_widths String.length ["A"] [["xx"]] (by decide)).1 0 (by decide)⟩

/-- C7: a pointer-motion hit-test miss while a row is focused does not
fail: the focused row's saved tags are written back onto it, and the focus
tracking is cleared to the falsy empty identifier — the Unfocused state of
the hover machine. -/
theorem C7_hover_miss (t : Table) (p : Nat) (ts : List String)
    (hfoc : t.last_focus.iid = IidVal.iid p)
    (hts : t.last_focus.tags = some ts)
    (hmem : p ∈ t.items.map Item.iid) :
    (highlight_row t none).last_focus.iid = IidVal.empty ∧
    (highlight_row t none).last_focus.iid.truthy = false ∧
    (findIt (highlight_row t none).items p).tags = ts := by
  have hne : iidValOfTarget none ≠ IidVal.iid p := by simp [iidValOfTarget]
  rw [highlight_row_from_iid t none p hfoc hne]
  refine ⟨rfl, rfl, ?_⟩
  show (findIt (setItemTags t.items p (t.last_focus.tags.getD [])) p).tags = ts
  unfold findIt
  rw [find?_setItemTags_self]
  rcases find?_iid_eq_some t.items p hmem with ⟨itp, hfind, _⟩
  rw [hfind, hts]
  rfl

theorem C7_witness :
    (demoHover.last_focus.iid = IidVal.iid 0 ∧
      demoHover.last_focus.tags = some ["oddrow"] ∧
      0 ∈ demoHover.items.map Item.iid) ∧
    (highlight_row demoHover none).last_focus.iid = IidVal.empty :=
  ⟨⟨rfl, rfl, by decide⟩, (C7_hover_miss demoHover 0 ["oddrow"] rfl rfl (by decide)).1⟩

/-- C6: in every reachable state at most one displayed row carries the
hover tag; motion resolving to the current focus changes nothing; when the
pointer leaves a focused row, that row's tags revert exactly to the tags
saved when it became hovered (held in `last_focus`), and a newly hovered
row's tags become exactly the single hover tag (its shade tag is replaced,
not extended). -/
theorem C6_hover_invariant (t : Table) (h : Reach t) :
    hoverCount t ≤ 1 ∧
    (∀ target, iidValOfTarget target = t.last_focus.iid → highlight_row t target = t) ∧
    (∀ target p ts, t.last_focus.iid = IidVal.iid p → t.last_focus.tags = some ts →
      iidValOfTarget target ≠ IidVal.iid p →
      (findIt (highlight_row t target).items p).tags = ts) ∧
    (∀ n, n ∈ t.items.map Item.iid → IidVal.iid n ≠ t.last_focus.iid →
      (findIt (highlight_row t (some n)).items n).tags = ["hovered_row"]) := by
  have hInv := Reach_Inv t h
  refine ⟨hoverCount_le_one t hInv, fun target => highlight_row_same t target, ?_, ?_⟩
  · intro target p ts hfoc hts hne
    rw [highlight_row_from_iid t target p hfoc hne]
    cases target with
    | none =>
      show (findIt (setItemTags t.items p (t.last_focus.tags.getD [])) p).tags = ts
      unfold findIt
      rw [find?_setItemTags_self]
      rcases find?_iid_eq_some t.items p (hInv.saved_present p hfoc).2 with ⟨itp, hfind, _⟩
      rw [hfind, hts]
      rfl
    | some n =>
      have hnp : n ≠ p := fun he => hne (by simp [iidValOfTarget, he])
      show (findIt (setItemTags (setItemTags t.items p (t.last_focus.tags.getD [])) n
        ["hovered_row"]) p).tags = ts
      unfold findIt
      rw [find?_setItemTags_ne _ n p _ hnp, find?_setItemTags_self]
      rcases find?_iid_eq_some t.items p (hInv.saved_present p hfoc).2 with ⟨itp, hfind, _⟩
      rw [hfind, hts]
      rfl
  · intro n hmem hne
    cases hfoc : t.last_focus.iid with
    | iid p =>
      have hne2 : iidValOfTarget (some n) ≠ IidVal.iid p := by
        rw [hfoc] at hne
        simpa [iidValOfTarget] using hne
      rw [highlight_row_from_iid t (some n) p hfoc hne2]
      have hnp : p ≠ n := fun he => hne2 (by simp [iidValOfTarget, he])
      show (findIt (setItemTags (setItemTags t.items p (t.last_focus.tags.getD [])) n
        ["hovered_row"]) n).tags = ["hovered_row"]
      unfold findIt
      rw [find?_setItemTags_self, find?_setItemTags_ne _ p n _ hnp]
      rcases find?_iid_eq_some t.items n hmem with ⟨itn, hfind, _⟩
      rw [hfind]
      rfl
    | pynone =>
      have hne2 : iidValOfTarget (some n) ≠ t.last_focus.iid := by
        rw [hfoc]
        simp [iidValOfTarget]
      rw [highlight_row_from_nonitem t (some n) (by rw [hfoc]; rfl) hne2]
      show (findIt (setItemTags t.items n ["hovered_row"]) n).tags = ["hovered_row"]
      unfold findIt
      rw [find?_setItemTags_self]
      rcases find?_iid_eq_some t.items n hmem with ⟨itn, hfind, _⟩
      rw [hfind]
      rfl
    | empty =>
      have hne2 : iidValOfTarget (some n) ≠ t.last_focus.iid := by
        rw [hfoc]
        simp [iidValOfTarget]
      rw [highlight_row_from_nonitem t (some n) (by rw [hfoc]; rfl) hne2]
      show (findIt (setItemTags t.items n ["hovered_row"]) n).tags = ["hovered_row"]
      unfold findIt
      rw [find?_setItemTags_self]
      rcases find?_iid_eq_some t.items n hmem with ⟨itn, hfind, _⟩
      rw [hfind]
      rfl

theorem C6_witness : Reach demoHover ∧ hoverCount demoHover ≤ 1 :=
  have hr : Reach demoHover := Reach.motion demoNum (some 0) (Reach.base _ _ _)
    (fun n hn => by injection hn with h2; rw [← h2]; decide)
  ⟨hr, (C6_hover_invariant demoHover hr).1⟩

/-- C10 (implicit): `sort_cols` never touches `last_focus`; in the concrete
hover-sort-miss scenario the sort overwrites the hovered row's tag with its
positional shade while the bookkeeping still holds the pre-sort saved tags,
and the next motion off the rows writes those stale tags back: the row now
displayed at position 1 ends with "oddrow" although its position requires
"evenrow" (both displayed rows share a shade). -/
theorem C10_stale_hover_restore (t : Table) (col : Nat) (t1 : Table)
    (hok : sort_cols t col = Except.ok t1) :
    t1.last_focus = t.last_focus ∧
    demoHover.last_focus = ⟨IidVal.iid 0, some ["oddrow"]⟩ ∧
    (sortOnce demoHover 0).last_focus = ⟨IidVal.iid 0, some ["oddrow"]⟩ ∧
    (sortOnce demoHover 0).items.map Item.tags = [["oddrow"], ["evenrow"]] ∧
    (highlight_row (sortOnce demoHover 0) none).items.map Item.iid = [1, 0] ∧
    (highlight_row (sortOnce demoHover 0) none).items.map Item.tags = [["oddrow"], ["oddrow"]] ∧
    shadeTag 1 = "evenrow" := by
  refine ⟨sort_cols_last_focus t col t1 hok, rfl, ?_, ?_, ?_, ?_, rfl⟩
  · with_unfolding_all rfl
  · with_unfolding_all rfl
  · with_unfolding_all rfl
  · with_unfolding_all rfl

theorem C10_witness :
    sort_cols demoHover 0 = Except.ok (sortOnce demoHover 0) ∧
    (sortOnce demoHover 0).last_focus = demoHover.last_focus :=
  ⟨by with_unfolding_all rfl,
   (C10_stale_hover_restore demoHover 0 (sortOnce demoHover 0)
     (by with_unfolding_all rfl)).1⟩
/-- C3 (corrected) — counterexample: starting from the reachable state
after one completed sort of the "10"/"9"/"-2" table (flag now ascending),
two further consecutive sorts on the same column both complete, the column
values are pairwise distinct, yet the resulting orders are not exact
reverses: the second of the two sorts samples the new first row "-2", whose
first character is not a digit, so it flips to the text branch and sorts
lexicographically. -/
theorem C3_counterexample :
    (sort_cols (sortOnce demoRev 0) 0).toOption = some (sortOnce (sortOnce demoRev 0) 0) ∧
    (sort_cols (sortOnce (sortOnce demoRev 0) 0) 0).toOption =
      some (sortOnce (sortOnce (sortOnce demoRev 0) 0) 0) ∧
    ((sortOnce demoRev 0).items.map fun it => cellValue it 0).Nodup ∧
    (sortOnce (sortOnce (sortOnce demoRev 0) 0) 0).items.map Item.values =
      [["9"], ["10"], ["-2"]] ∧
    ((sortOnce (sortOnce demoRev 0) 0).items.map Item.values).reverse =
      [["10"], ["9"], ["-2"]] ∧
    ([["9"], ["10"], ["-2"]] : List (List String)) ≠ [["10"], ["9"], ["-2"]] :=
  ⟨by with_unfolding_all rfl, by with_unfolding_all rfl, by with_unfolding_all decide,
   by with_unfolding_all rfl, by with_unfolding_all rfl, by decide⟩

/-- C3 (amended): the direction flag starts descending and flips on every
completed sort, shared across columns; two consecutive completed sorts on
the same column yield exactly reversed row orders provided the
numeric-detection outcome is the same for both sorts (the first sort can
move a different row into the sampled first position; when the decision
flips, the orders need not be reverses — see the counterexample). A first
sort performed while the flag is descending leaves the sort keys in
descending order. The claim's pairwise-distinctness hypothesis is retained
(reversal in fact needs only the distinct item identifiers that break
ties). -/
theorem C3_amended (t : Table) (col : Nat) (t1 t2 : Table)
    (hnd : (t.items.map Item.iid).Nodup)
    (h1 : sort_cols t col = Except.ok t1)
    (h2 : sort_cols t1 col = Except.ok t2)
    (hbranch : branchNumeric t1 col = branchNumeric t col)
    (hdist : (t.items.map fun it => cellValue it col).Nodup) :
    (∀ (measure : String → Nat) (cols : List String) (data : List (List String)),
      (init_table measure cols data).descending = true) ∧
    t1.descending = !t.descending ∧
    t2.descending = t.descending ∧
    t2.items.map Item.iid = (t1.items.map Item.iid).reverse ∧
    t2.items.map Item.values = (t1.items.map Item.values).reverse ∧
    (t.descending = true → branchNumeric t col = false →
      List.Sorted pairGe (t1.items.map fun it => (cellValue it col, it.iid))) ∧
    (t.descending = true → branchNumeric t col = true →
      List.Sorted pairGe (t1.items.map fun it => (numKey col it, it.iid))) := by
  have hd1 := sort_cols_descending t col t1 h1
  have hd2 := sort_cols_descending t1 col t2 h2
  have hnd1 : (t1.items.map Item.iid).Nodup :=
    (sort_cols_perm_iid t col t1 hnd h1).symm.nodup hnd
  rcases sort_cols_ok_inv t col t1 h1 with ⟨f1, r1, hit1, hcase1⟩
  rcases sort_cols_ok_inv t1 col t2 h2 with ⟨f2, r2, hit2, hcase2⟩
  have hb1 := branchNumeric_of_items t col f1 r1 hit1
  have hb2 := branchNumeric_of_items t1 col f2 r2 hit2
  rcases hcase1 with ⟨hnum1, nd1, hp1, ht1eq⟩ | ⟨hnum1, ht1eq⟩
  · -- first sort took the numeric branch
    have hbt : branchNumeric t col = true := by rw [hb1, hnum1]
    have hbt1 : branchNumeric t1 col = true := by rw [hbranch, hbt]
    have hkeys1 : t1.items.map (fun it => (numKey col it, it.iid)) =
        pySortPairs t.descending nd1 := by
      rw [ht1eq]
      exact sort_cols_keys_num t col nd1 hnd hp1
    rcases hcase2 with ⟨hnum2, nd2, hp2, ht2eq⟩ | ⟨hnum2, _⟩
    · have hnd2eq : nd2 = pySortPairs t.descending nd1 := by
        rw [mapParse_some_as_numKey t1 col nd2 hp2, hkeys1]
      have hperm12 : List.Perm nd1 nd2 := by
        rw [hnd2eq]
        exact (pySortPairs_perm t.descending nd1).symm
      have hrev : pySortPairs t1.descending nd2 = (pySortPairs t.descending nd1).reverse := by
        rw [hd1]
        exact pySortPairs_flip_reverse t.descending nd1 nd2 hperm12
      have ht1iid : t1.items.map Item.iid = (pySortPairs t.descending nd1).map Prod.snd := by
        have h3 := congrArg (List.map Prod.snd) hkeys1
        rw [List.map_map] at h3
        exact h3
      have hperm2 : List.Perm ((pySortPairs t1.descending nd2).map Prod.snd)
          (t1.items.map Item.iid) := by
        rw [ht1iid, hrev, List.map_reverse]
        exact (List.reverse_perm _)
      have ht2iid : t2.items.map Item.iid = (pySortPairs t1.descending nd2).map Prod.snd := by
        rw [ht2eq, postSort_items]
        exact sortResult_map_iid _ t1.items hnd1 hperm2
      refine ⟨fun _ _ _ => rfl, hd1, by rw [hd2, hd1, Bool.not_not], ?_, ?_, ?_, ?_⟩
      · rw [ht2iid, hrev, List.map_reverse, ht1iid]
      · have hvals : t2.items.map Item.values =
            ((pySortPairs t1.descending nd2).map Prod.snd).map
              (fun j => (findIt t1.items j).values) := by
          rw [ht2eq, postSort_items]
          exact sortResult_map_values _ t1.items hnd1 hperm2
        rw [hvals, hrev, List.map_reverse, List.map_reverse, ← ht1iid,
          map_values_of_iids t1.items hnd1]
      · intro _ hbf
        rw [hbt] at hbf
        exact absurd hbf (by simp)
      · intro hdesc _
        rw [hkeys1, hdesc]
        exact List.sorted_insertionSort pairGe nd1
    · rw [hb2] at hbt1
      rw [hnum2] at hbt1
      exact absurd hbt1 (by simp)
  · -- first sort took the text branch
    have hbf : branchNumeric t col = false := by rw [hb1, hnum1]
    have hbf1 : branchNumeric t1 col = false := by rw [hbranch, hbf]
    have hkeys1 : t1.items.map (fun it => (cellValue it col, it.iid)) =
        pySortPairs t.descending (pairsOf t col) := by
      rw [ht1eq]
      exact sort_cols_keys_text t col hnd
    rcases hcase2 with ⟨hnum2, _, _, _⟩ | ⟨hnum2, ht2eq⟩
    · rw [hb2] at hbf1
      rw [hnum2] at hbf1
      exact absurd hbf1 (by simp)
    · have hnd2eq : pairsOf t1 col = pySortPairs t.descending (pairsOf t col) := by
        rw [← hkeys1]
        rfl
      have hperm12 : List.Perm (pairsOf t col) (pairsOf t1 col) := by
        rw [hnd2eq]
        exact (pySortPairs_perm t.descending (pairsOf t col)).symm
      have hrev : pySortPairs t1.descending (pairsOf t1 col) =
          (pySortPairs t.descending (pairsOf t col)).reverse := by
        rw [hd1]
        exact pySortPairs_flip_reverse t.descending _ _ hperm12
      have ht1iid : t1.items.map Item.iid =
          (pySortPairs t.descending (pairsOf t col)).map Prod.snd := by
        have h3 := congrArg (List.map Prod.snd) hkeys1
        rw [List.map_map] at h3
        exact h3
      have hperm2 : List.Perm ((pySortPairs t1.descending (pairsOf t1 col)).map Prod.snd)
          (t1.items.map Item.iid) := by
        rw [ht1iid, hrev, List.map_reverse]
        exact (List.reverse_perm _)
      have ht2iid : t2.items.map Item.iid =
          (pySortPairs t1.descending (pairsOf t1 col)).map Prod.snd := by
        rw [ht2eq, postSort_items]
        exact sortResult_map_iid _ t1.items hnd1 hperm2
      refine ⟨fun _ _ _ => rfl, hd1, by rw [hd2, hd1, Bool.not_not], ?_, ?_, ?_, ?_⟩
      · rw [ht2iid, hrev, List.map_reverse, ht1iid]
      · have hvals : t2.items.map Item.values =
            ((pySortPairs t1.descending (pairsOf t1 col)).map Prod.snd).map
              (fun j => (findIt t1.items j).values) := by
          rw [ht2eq, postSort_items]
          exact sortResult_map_values _ t1.items hnd1 hperm2
        rw [hvals, hrev, List.map_reverse, List.map_reverse, ← ht1iid,
          map_values_of_iids t1.items hnd1]
      · intro hdesc _
        rw [hkeys1, hdesc]
        exact List.sorted_insertionSort pairGe (pairsOf t col)
      · intro _ hbt
        rw [hbf] at hbt
        exact absurd hbt (by simp)

theorem C3_amended_witness :
    ((demoNum.items.map Item.iid).Nodup ∧
     sort_cols demoNum 0 = Except.ok (sortOnce demoNum 0) ∧
     sort_cols (sortOnce demoNum 0) 0 = Except.ok (sortOnce (sortOnce demoNum 0) 0) ∧
     branchNumeric (sortOnce demoNum 0) 0 = branchNumeric demoNum 0 ∧
     (demoNum.items.map fun it => cellValue it 0).Nodup) ∧
    (sortOnce (sortOnce demoNum 0) 0).items.map Item.iid =
      ((sortOnce demoNum 0).items.map Item.iid).reverse :=
  ⟨⟨by decide, by with_unfolding_all rfl, by with_unfolding_all rfl,
    by with_unfolding_all rfl, by decide⟩,
   (C3_amended demoNum 0 (sortOnce demoNum 0) (sortOnce (sortOnce demoNum 0) 0)
     (by decide) (by with_unfolding_all rfl) (by with_unfolding_all rfl)
     (by with_unfolding_all rfl) (by decide)).2.2.2.1⟩

end TkTable
